import Mathlib

/-!
Shallow embedding of the deep-equality / deep-clone core of `tick-ts-utils`
(`src/deepEquals/deepEquals.ts`, `src/deepClone/deepClone.ts` in its
WeakMap-based `internalDeepClone` revision, and `src/internal.ts`).

Modelling choices:
* A JavaScript value is a primitive, a reference into an explicit heap of
  objects (object identity = heap address), or a function value.  Function
  values carry an identity, a declared arity (`Function.prototype.length`),
  their source text (`Function.prototype.toString`) and a *behaviour*: the
  closed set of behaviours the engine can observe when it invokes a
  user-supplied `equals` / `deepClone` hook (return a fixed boolean,
  return a fixed value, or unmodelled).
* JS numbers are modelled with explicit `NaN` and `-0` constructors so that
  the `Object.is` (SameValue) identity step of `deepEquals` is faithful:
  `Object.is(NaN, NaN)` is `true` and `Object.is(0, -0)` is `false`.
* Objects hold an insertion-ordered own-property list (string and symbol
  keys, all data properties), an optional prototype reference and a brand
  tag (`plain` / `Date` with its time value / `RegExp` with source and
  flags).  A prototype of `none` stands for the terminal
  `Object.prototype`, so `value instanceof Object` holds for every
  reference and every function, as it does for ordinary JS objects.
* Recursive traversals take an explicit fuel argument; `none` (for
  `deepEquals`) and `CloneRes.timeout` (for `internalDeepClone`) mean the
  computation did not finish within the given fuel.  `CloneRes.thrown`
  models a thrown `TypeError`.
-/

namespace TickTsUtils

/-- JS numbers as far as `Object.is` can distinguish them: `NaN`, `-0`, and
other (integral) numbers, `JSNum.int 0` being `+0`. -/
inductive JSNum where
  | nan
  | negZero
  | int (n : Int)
  deriving DecidableEq

/-- JS primitive values. -/
inductive Prim where
  | num (n : JSNum)
  | str (s : String)
  | bool (b : Bool)
  | null
  | undef
  deriving DecidableEq

/-- Own-property keys: strings or symbols (`Reflect.ownKeys` returns both). -/
inductive PropKey where
  | str (s : String)
  | sym (id : Nat)
  deriving DecidableEq

/-- Brand tag of a heap object: an ordinary object, a `Date` (with its time
value, an internal slot rather than an own property), or a `RegExp` (with
source and flags). -/
inductive Tag where
  | plain
  | date (time : Int)
  | regexp (source flags : String)
  deriving DecidableEq

mutual
/-- A JS value: primitive, reference to a heap object, or function.
`func fid arity fsrc beh`: `fid` is the function's identity (for
`Object.is`), `arity` its declared parameter count, `fsrc` its
`toString()` text, `beh` its behaviour when invoked by the engine. -/
inductive Value where
  | prim (p : Prim)
  | ref (a : Nat)
  | func (fid : Nat) (arity : Nat) (fsrc : String) (beh : Beh)

/-- Observable behaviour of a user function when the engine calls it:
`retBool b` returns the boolean `b` (an `equals` hook), `ret v` returns
the value `v` (a `deepClone` hook), `unmodelled` is a call whose outcome
the embedding does not model. -/
inductive Beh where
  | unmodelled
  | retBool (b : Bool)
  | ret (v : Value)
end

/-- A heap object: insertion-ordered own data properties, optional
prototype reference (`none` = `Object.prototype`), and brand tag. -/
structure Obj where
  props : List (PropKey × Value)
  proto : Option Nat
  tag : Tag

/-- A heap: object identities are list indices. -/
abbrev Heap := List Obj

/-- First binding of a key in an own-property list. -/
def findProp : List (PropKey × Value) → PropKey → Option Value
  | [], _ => none
  | (k', v) :: rest, k => if k' = k then some v else findProp rest k

/-- `typeof` of a modelled value (note the JS quirk `typeof null === "object"`). -/
def typeofStr : Value → String
  | .prim (.num _) => "number"
  | .prim (.str _) => "string"
  | .prim (.bool _) => "boolean"
  | .prim .null => "object"
  | .prim .undef => "undefined"
  | .ref _ => "object"
  | .func _ _ _ _ => "function"

/-- `value === null || value === undefined`. -/
def isNullish : Value → Bool
  | .prim .null => true
  | .prim .undef => true
  | _ => false

/-- SameValue on numbers: `Object.is(NaN, NaN)` is true, `Object.is(0, -0)` is false. -/
def sameValueNum : JSNum → JSNum → Bool
  | .nan, .nan => true
  | .negZero, .negZero => true
  | .int m, .int n => m == n
  | _, _ => false

/-- `Object.is` (SameValue): representation identity on primitives, reference
identity on objects and functions. -/
def objectIs : Value → Value → Bool
  | .prim (.num a), .prim (.num b) => sameValueNum a b
  | .prim (.str a), .prim (.str b) => a == b
  | .prim (.bool a), .prim (.bool b) => a == b
  | .prim .null, .prim .null => true
  | .prim .undef, .prim .undef => true
  | .ref a, .ref b => a == b
  | .func f _ _ _, .func g _ _ _ => f == g
  | _, _ => false

/-- Prototype-chain member lookup (models both `name in object` and member
access `object[name]`), with explicit chain fuel. -/
def getInChain (h : Heap) : Nat → Nat → PropKey → Option Value
  | 0, _, _ => none
  | f + 1, a, k =>
    match h[a]? with
    | none => none
    | some o =>
      match findProp o.props k with
      | some v => some v
      | none =>
        match o.proto with
        | some p => getInChain h f p k
        | none => none

/-- `object[name]` through the prototype chain (chain fuel `h.length + 1`
always suffices: a chain that visits more objects repeats one, and a
deterministic chain repeats forever from a repeat). -/
def getMember (h : Heap) (v : Value) (name : String) : Option Value :=
  match v with
  | .ref a => getInChain h (h.length + 1) a (.str name)
  | _ => none

/-- `src/internal.ts` `hasFunctionWithArity`: the value is a non-null object,
`name in object` finds a function, and its declared arity is exactly
`arity`.  (Non-references cover the `null` / `undefined` / non-object
guards: `typeof` of a function value is `"function"`, not `"object"`.) -/
def hasFunctionWithArity (h : Heap) (v : Value) (name : String) (arity : Nat) : Bool :=
  match getMember h v name with
  | some (.func _ ar _ _) => ar == arity
  | _ => false

/-- `hasEqualFunction` from `deepEquals.ts`: an `equals` member of arity 1. -/
def hasEqualFunction (h : Heap) (v : Value) : Bool :=
  hasFunctionWithArity h v "equals" 1

/-- `value.equals(arg)`: invoke the `equals` member; only `retBool`
behaviours produce a modelled boolean. -/
def callEqualsMethod (h : Heap) (v : Value) (_arg : Value) : Option Bool :=
  match getMember h v "equals" with
  | some (.func _ _ _ (.retBool b)) => some b
  | _ => none

/-- Is the value a function value? -/
def isFunction : Value → Bool
  | .func _ _ _ _ => true
  | _ => false

/-- `toString()` of a function value (empty for non-functions; only used
after an `isFunction` test). -/
def funcSrc : Value → String
  | .func _ _ s _ => s
  | _ => ""

/-- Own-property read `o[k]` with the JS default `undefined`. -/
def getOwn (o : Obj) (k : PropKey) : Value :=
  (findProp o.props k).getD (.prim .undef)

/-- The `keys1.every(...)` body of `deepEquals`: each key of `value1` must be
a key of `value2`; two function-valued properties with different source
text are unequal; otherwise compare the property values recursively via
`go`. -/
def keysEqualLoop (go : Value → Value → Option Bool) (o1 o2 : Obj) :
    List PropKey → Option Bool
  | [] => some true
  | key :: rest =>
    if !((o2.props.map Prod.fst).contains key) then some false
    else
      let x1 := getOwn o1 key
      let x2 := getOwn o2 key
      if isFunction x1 && isFunction x2 && !(funcSrc x1 == funcSrc x2) then some false
      else
        match go x1 x2 with
        | some true => keysEqualLoop go o1 o2 rest
        | some false => some false
        | none => none

/-- `deepEquals` from `src/deepEquals/deepEquals.ts`, with explicit recursion
fuel (`none` = the recursion did not finish within `fuel`):
1. `value1`'s arity-1 `equals` hook, if present;
2. else `value2`'s arity-1 `equals` hook, if present;
3. else `Object.is` identity;
4. else `false` if either value is `null` / `undefined`;
5. else `false` if either `typeof` is not `"object"`;
6. else `false` on own-key-count mismatch;
7. else the per-key loop `keysEqualLoop`. -/
def deepEquals (h : Heap) : Nat → Value → Value → Option Bool
  | 0, _, _ => none
  | fuel + 1, value1, value2 =>
    if hasEqualFunction h value1 then callEqualsMethod h value1 value2
    else if hasEqualFunction h value2 then callEqualsMethod h value2 value1
    else if objectIs value1 value2 then some true
    else if isNullish value1 || isNullish value2 then some false
    else if !(typeofStr value1 == "object") || !(typeofStr value2 == "object") then some false
    else
      match value1, value2 with
      | .ref a1, .ref a2 =>
        match h[a1]?, h[a2]? with
        | some o1, some o2 =>
          if (o1.props.map Prod.fst).length != (o2.props.map Prod.fst).length then some false
          else keysEqualLoop (fun x y => deepEquals h fuel x y) o1 o2 (o1.props.map Prod.fst)
        | _, _ => none
      | _, _ => none

/-! ## The clone engine: `internalDeepClone` (WeakMap revision) -/

/-- State of one top-level `deepClone` call: the heap (clones are appended)
and the WeakMap `map` from source identity to clone identity. -/
structure CloneSt where
  heap : Heap
  vis : List (Nat × Nat)

/-- Result of a (fuelled) clone step: fuel ran out, a `TypeError` was
thrown, or a value was produced in a new state. -/
inductive CloneRes where
  | timeout
  | thrown
  | ok (r : Value) (st : CloneSt)

/-- `WeakMap.prototype.get`-style lookup (`has` = `isSome`). -/
def findVis : List (Nat × Nat) → Nat → Option Nat
  | [], _ => none
  | (a, c) :: rest, b => if a = b then some c else findVis rest b

/-- `val instanceof Object`: true for references and functions (all modelled
objects have `Object.prototype` in their chain, see the model notes). -/
def instanceofObject : Value → Bool
  | .ref _ => true
  | .func _ _ _ _ => true
  | _ => false

/-- `isObjectOrFunction` from `deepClone.ts`:
`typeof value === "object" || typeof value === "function"` (so `null`
passes, the JS quirk the null test below exercises). -/
def isObjectOrFunction (v : Value) : Bool :=
  typeofStr v == "object" || typeofStr v == "function"

/-- `hasDeepCloneMethod`: a `deepClone` member of arity 0. -/
def hasDeepCloneMethod (h : Heap) (v : Value) : Bool :=
  hasFunctionWithArity h v "deepClone" 0

/-- Replace the binding of `k` (keeping key order); other keys unchanged. -/
def replaceProp : List (PropKey × Value) → PropKey → Value → List (PropKey × Value)
  | [], _, _ => []
  | (k', v') :: rest, k, r =>
    if k' = k then (k', r) :: replaceProp rest k r
    else (k', v') :: replaceProp rest k r

/-- `cloned[key] = r`: assignment to an (existing, writable) own data
property of the object at address `c`. -/
def setProp (h : Heap) (c : Nat) (k : PropKey) (r : Value) : Heap :=
  match h[c]? with
  | some o => h.set c { o with props := replaceProp o.props k r }
  | none => h

/-- The `Reflect.ownKeys(toClone).forEach(...)` loop of `internalDeepClone`:
`cloned[key] = val instanceof Object ? internalDeepClone(val, map) : val`,
then `return cloned`. -/
def clonePropsLoop (go : Value → CloneSt → CloneRes) (c : Nat) :
    List (PropKey × Value) → CloneSt → CloneRes
  | [], st => .ok (.ref c) st
  | (k, val) :: rest, st =>
    if instanceofObject val then
      match go val st with
      | .ok r st' => clonePropsLoop go c rest ⟨setProp st'.heap c k r, st'.vis⟩
      | other => other
    else clonePropsLoop go c rest ⟨setProp st.heap c k val, st.vis⟩

/-- `internalDeepClone` from the WeakMap revision of `deepClone.ts`, with
explicit recursion fuel:
1. an arity-0 `deepClone` hook is called and its result returned
   (`ret r` behaviours are modelled; any other behaviour is an
   unmodelled call, folded into `thrown`);
2. non-object-non-function values are returned as-is;
3. functions are returned as-is;
4. `Date` / `RegExp` objects are rebuilt fresh (same internal data, no
   own properties, no WeakMap registration);
5. a source already in the WeakMap returns its registered clone;
6. otherwise `Object.create(Object.getPrototypeOf(toClone), descriptors)`
   copies prototype and own properties, the pair is registered in the
   WeakMap *before* the property loop, and every own property is
   reassigned to its recursive clone (`instanceof Object` values) or
   itself.
A `.prim` value reaching step 5 can only be `null` (it passed the
`typeof === "object"` guard): `WeakMap.has(null)` is `false` and then
`Object.getOwnPropertyDescriptors(null)` throws a `TypeError`. -/
def internalDeepClone : Nat → Value → CloneSt → CloneRes
  | 0, _, _ => .timeout
  | fuel + 1, v, st =>
    if hasDeepCloneMethod st.heap v then
      match getMember st.heap v "deepClone" with
      | some (.func _ _ _ (.ret r)) => .ok r st
      | _ => .thrown
    else if !(isObjectOrFunction v) then .ok v st
    else if typeofStr v == "function" then .ok v st
    else
      match v with
      | .ref a =>
        match st.heap[a]? with
        | none => .thrown
        | some o =>
          match o.tag with
          | .date t => .ok (.ref st.heap.length) ⟨st.heap ++ [⟨[], o.proto, .date t⟩], st.vis⟩
          | .regexp s f =>
            .ok (.ref st.heap.length) ⟨st.heap ++ [⟨[], o.proto, .regexp s f⟩], st.vis⟩
          | .plain =>
            match findVis st.vis a with
            | some c => .ok (.ref c) st
            | none =>
              let c := st.heap.length
              clonePropsLoop (fun v' s => internalDeepClone fuel v' s) c o.props
                ⟨st.heap ++ [⟨o.props, o.proto, .plain⟩], (a, c) :: st.vis⟩
      | _ => .thrown

/-- `deepClone(value)`: one top-level call with a fresh WeakMap. -/
def deepClone (fuel : Nat) (h : Heap) (v : Value) : CloneRes :=
  internalDeepClone fuel v ⟨h, []⟩

/-! ## Well-formedness and claim-level predicates -/

/-- References inside a source heap of `n` objects stay inside it. -/
def valRefOK (n : Nat) : Value → Bool
  | .ref a => decide (a < n)
  | _ => true

/-- A well-formed source object: distinct own keys, in-heap property
references and prototype. -/
def objWF (n : Nat) (o : Obj) : Bool :=
  decide ((o.props.map Prod.fst).Nodup) &&
  o.props.all (fun kv => valRefOK n kv.2) &&
  (match o.proto with
   | some p => decide (p < n)
   | none => true)

/-- A well-formed source heap (what any real JS object graph satisfies). -/
def heapWF (h : Heap) : Bool :=
  h.all (objWF h.length)

/-- No object of the heap carries an own arity-0 `deepClone` function
property, so no (valid) custom clone hook fires anywhere in the graph.
Wrong-arity `deepClone` properties are allowed: they are not hooks. -/
def noCloneHooks (h : Heap) : Bool :=
  h.all (fun o => o.props.all (fun kv =>
    !(kv.1 == PropKey.str "deepClone" && (match kv.2 with
      | .func _ ar _ _ => ar == 0
      | _ => false))))

/-- No value of the heap exposes a valid arity-1 `equals` hook. -/
def noEqualsHooks (h : Heap) : Bool :=
  (List.range h.length).all (fun a => !(hasEqualFunction h (.ref a)))

/-- Every valid `equals` hook in the heap has a modelled boolean behaviour
(its call terminates and returns a boolean). -/
def equalsHooksModelled (h : Heap) : Bool :=
  (List.range h.length).all (fun a =>
    !(hasEqualFunction h (.ref a)) || (callEqualsMethod h (.ref a) (.prim .undef)).isSome)

/-- `ranks` witnesses that the heap's object graph is acyclic: every
property reference strictly descends. -/
def ranksOK (h : Heap) (ranks : List Nat) : Bool :=
  decide (ranks.length = h.length) &&
  (List.range h.length).all (fun a =>
    match h[a]? with
    | some o => o.props.all (fun kv =>
        match kv.2 with
        | .ref b => decide (ranks.getD b 0 < ranks.getD a 0)
        | _ => true)
    | none => true)

/-- Rank of a value under an acyclic-heap certificate. -/
def valRank (ranks : List Nat) : Value → Nat
  | .ref a => ranks.getD a 0 + 1
  | _ => 0

/-- All references of a value point into the heap. -/
def valClosed (h : Heap) : Value → Bool
  | .ref a => decide (a < h.length)
  | _ => true

/-- `deepEquals` never terminates on this pair, whatever the recursion
budget: the fuelled run returns `none` at every fuel. -/
def DivergesOn (h : Heap) (v1 v2 : Value) : Prop :=
  ∀ fuel, deepEquals h fuel v1 v2 = none

/-! Concrete heaps used by counterexamples and witnesses. -/

/-- Two distinct self-referential objects `a = {self: a}`, `b = {self: b}`:
the cyclic pair on which `deepEquals` diverges. -/
def cycHeap : Heap :=
  [⟨[(.str "self", .ref 0)], none, .plain⟩,
   ⟨[(.str "self", .ref 1)], none, .plain⟩]

/-- A single empty plain object `{}` (what the earlier `deepClone` revision
returns for `null`). -/
def emptyObjHeap : Heap :=
  [⟨[], none, .plain⟩]

/-- Heap for the custom-hook witness: object 0 carries an own arity-1
`equals` hook returning `false`; object 1 has no hook. -/
def hookHeap : Heap :=
  [⟨[(.str "equals", .func 0 1 "(o) => false" (.retBool false))], none, .plain⟩,
   ⟨[], none, .plain⟩]

/-- Heap for the inherited-hook witness: object 0 has empty own properties
and inherits both hooks from its prototype, object 1. -/
def protoHookHeap : Heap :=
  [⟨[], some 1, .plain⟩,
   ⟨[(.str "equals", .func 7 1 "(o) => true" (.retBool true)),
     (.str "deepClone", .func 8 0 "() => \"hooked\"" (.ret (.prim (.str "hooked"))))],
    none, .plain⟩]

/-- The Boolean value of one `keys1.every(...)` iteration of `deepEquals`
for key `k`: `k` is a key of the other object, the function special case
does not reject, and the recursive comparison returns `true`. -/
def keyTest (go : Value → Value → Option Bool) (o1 o2 : Obj) (k : PropKey) : Bool :=
  (o2.props.map Prod.fst).contains k &&
  !(isFunction (getOwn o1 k) && isFunction (getOwn o2 k) &&
    !(funcSrc (getOwn o1 k) == funcSrc (getOwn o2 k))) &&
  (go (getOwn o1 k) (getOwn o2 k) == some true)

/-- A small acyclic heap (`{x: inner}` and an empty `inner`), with rank
certificate `[1, 0]`: used by the totality and symmetry witnesses. -/
def rankedHeap : Heap :=
  [⟨[(.str "x", .ref 1)], none, .plain⟩,
   ⟨[], none, .plain⟩]

/-- Asymmetry counterexample heap: objects 0 and 1 are hook-free wrappers
`{x: hooked}`, but object 0's field carries an always-`true` `equals`
hook while object 1's field carries an always-`false` one.  Comparing 0
against 1 dispatches to the first hook, comparing 1 against 0 to the
second. -/
def asymHeap : Heap :=
  [⟨[(.str "x", .ref 2)], none, .plain⟩,
   ⟨[(.str "x", .ref 3)], none, .plain⟩,
   ⟨[(.str "equals", .func 10 1 "(o) => true" (.retBool true))], none, .plain⟩,
   ⟨[(.str "equals", .func 11 1 "(o) => false" (.retBool false))], none, .plain⟩]

/-- The first `n` entries of `h'` agree with those of `h`. -/
def HeapAgree (h h' : Heap) (n : Nat) : Prop :=
  ∀ i, i < n → h'[i]? = h[i]?

/-- Invariant of one `deepClone` run over source heap `h0`: the source
region is untouched, clones only extend the heap, and the WeakMap sends
distinct source addresses to clone addresses in the extension. -/
def CloneInv (h0 : Heap) (st : CloneSt) : Prop :=
  h0.length ≤ st.heap.length ∧ HeapAgree h0 st.heap h0.length ∧
  (st.vis.map Prod.fst).Nodup ∧
  ∀ pr ∈ st.vis, pr.1 < h0.length ∧ h0.length ≤ pr.2 ∧ pr.2 < st.heap.length

/-- How `internalDeepClone` relates a source value to its result, stated
against the run's final state: primitives and functions come back as
themselves; a reference to a plain source object comes back as the
reference its WeakMap entry records; `Date` / `RegExp` sources come back
as fresh references outside the source region. -/
def CloneRel (h0 : Heap) (st' : CloneSt) : Value → Value → Prop
  | .prim p, r => r = .prim p
  | .func fid ar s be, r => r = .func fid ar s be
  | .ref b, r =>
    match h0[b]? with
    | some o =>
      match o.tag with
      | .plain => ∃ c, r = .ref c ∧ findVis st'.vis b = some c
      | .date _ => ∃ c, r = .ref c ∧ h0.length ≤ c
      | .regexp _ _ => ∃ c, r = .ref c ∧ h0.length ≤ c
    | none => True

/-- A value `internalDeepClone` can be started on without throwing: a
reference into the source heap, a function, or a non-`null` primitive
(`null` throws, see `deepClone_null_bug`). -/
def SrcVal (h0 : Heap) : Value → Prop
  | .ref a => a < h0.length
  | .func _ _ _ _ => True
  | .prim p => p ≠ Prim.null

/-- Property values of source objects keep their references in the source
heap (primitives and functions are unconstrained). -/
def FieldOK (h0 : Heap) (v : Value) : Prop :=
  ∀ a, v = .ref a → a < h0.length

/-- Induction statement for the clone engine at a given fuel: from any
state satisfying the run invariant, any source value clones successfully
(no timeout, no throw), the run only extends heap and WeakMap, and the
result is `CloneRel`-related to the source. -/
def CloneStepOK (h0 : Heap) (fuel : Nat) : Prop :=
  ∀ (st : CloneSt) (v : Value), CloneInv h0 st → SrcVal h0 v →
    h0.length - st.vis.length < fuel →
    ∃ r st', internalDeepClone fuel v st = .ok r st' ∧
      CloneInv h0 st' ∧ st.heap.length ≤ st'.heap.length ∧
      HeapAgree st.heap st'.heap st.heap.length ∧
      st.vis <:+ st'.vis ∧ CloneRel h0 st' v r

/-- A single self-referential object `a = {self: a}` (cycle-safety witness). -/
def selfLoopHeap : Heap :=
  [⟨[(.str "self", .ref 0)], none, .plain⟩]

/-- `{l: inner, r: inner}` with both fields aliasing one empty object
(shared-reference witness). -/
def sharedHeap : Heap :=
  [⟨[(.str "l", .ref 1), (.str "r", .ref 1)], none, .plain⟩,
   ⟨[], none, .plain⟩]

/-- `{l: d, r: d}` with both fields aliasing one `Date` object: the
`instanceof Date` branch of `internalDeepClone` runs *before* the
WeakMap check and never registers its fresh `new Date(value)`, so each
alias is rebuilt separately. -/
def sharedDateHeap : Heap :=
  [⟨[(.str "l", .ref 1), (.str "r", .ref 1)], none, .plain⟩,
   ⟨[], none, .date 0⟩]

/-- An object with a prototype, a string key and a symbol key (generic
structural-clone witness). -/
def protoKeysHeap : Heap :=
  [⟨[(.str "a", .prim (.num (.int 1))), (.sym 0, .ref 1)], some 1, .plain⟩,
   ⟨[], none, .plain⟩]

/-- Object 0 carries an `equals` *of arity 2* claiming everything equal,
and one extra own key; object 1 is empty.  The wrong-arity hook must be
ignored, so the key-count mismatch decides. -/
def wrongArityEqualsHeap : Heap :=
  [⟨[(.str "equals", .func 20 2 "(a, b) => true" (.retBool true)),
     (.str "z", .prim (.num (.int 1)))], none, .plain⟩,
   ⟨[], none, .plain⟩]

/-- An object whose own `deepClone` has arity 1 (wrong: hooks must take 0
arguments) and would return the number 7; the engine must clone
structurally instead. -/
def wrongArityCloneHeap : Heap :=
  [⟨[(.str "deepClone", .func 21 1 "(x) => 7" (.ret (.prim (.num (.int 7)))))],
    none, .plain⟩]

/-! ## Helper lemmas: prototype-chain lookup -/

theorem getInChain_found (h : Heap) (f a : Nat) (k : PropKey) (o : Obj) (w : Value)
    (ha : h[a]? = some o) (hk : findProp o.props k = some w) :
    getInChain h (f + 1) a k = some w := by
  simp [getInChain, ha, hk]

theorem getInChain_step (h : Heap) (f a p : Nat) (k : PropKey) (o : Obj)
    (ha : h[a]? = some o) (hk : findProp o.props k = none) (hp : o.proto = some p) :
    getInChain h (f + 1) a k = getInChain h f p k := by
  simp [getInChain, ha, hk, hp]

theorem getMember_inherit (h : Heap) (a p : Nat) (o po : Obj) (name : String) (w : Value)
    (ha : h[a]? = some o) (hk : findProp o.props (.str name) = none)
    (hp : o.proto = some p) (hpo : h[p]? = some po)
    (hw : findProp po.props (.str name) = some w) :
    getMember h (.ref a) name = some w := by
  have hlt : p < h.length := by
    rcases List.getElem?_eq_some.mp hpo with ⟨hlt, _⟩
    exact hlt
  obtain ⟨m, hm⟩ : ∃ m, h.length = m + 1 := ⟨h.length - 1, by omega⟩
  show getInChain h (h.length + 1) a (.str name) = some w
  rw [getInChain_step h h.length a p (.str name) o ha hk hp, hm]
  exact getInChain_found h m p (.str name) po w hpo hw

/-! ## Helper lemmas: own properties, well-formedness -/

theorem findProp_mem {l : List (PropKey × Value)} {k : PropKey} {v : Value}
    (hf : findProp l k = some v) : (k, v) ∈ l := by
  induction l with
  | nil => simp [findProp] at hf
  | cons kv rest ih =>
    obtain ⟨k', v'⟩ := kv
    by_cases hk : k' = k
    · subst hk
      simp [findProp] at hf
      simp [hf]
    · simp [findProp, hk] at hf
      exact List.mem_cons_of_mem _ (ih hf)

theorem findProp_of_mem_keys {l : List (PropKey × Value)} {k : PropKey}
    (hk : k ∈ l.map Prod.fst) : ∃ v, findProp l k = some v := by
  induction l with
  | nil => simp at hk
  | cons kv rest ih =>
    obtain ⟨k', v'⟩ := kv
    by_cases hke : k' = k
    · subst hke
      exact ⟨v', by simp [findProp]⟩
    · have hk' : k ∈ rest.map Prod.fst := by
        rcases List.mem_map.mp hk with ⟨kv, hkv, hfst⟩
        rcases List.mem_cons.mp hkv with hkv1 | hkv2
        · rw [hkv1] at hfst
          exact absurd hfst hke
        · exact List.mem_map.mpr ⟨kv, hkv2, hfst⟩
      obtain ⟨v, hv⟩ := ih hk'
      exact ⟨v, by simp [findProp, hke, hv]⟩

theorem heapWF_obj {h : Heap} {a : Nat} {o : Obj}
    (hwf : heapWF h = true) (ha : h[a]? = some o) : objWF h.length o = true := by
  have hm : o ∈ h := List.getElem?_mem ha
  exact List.all_eq_true.mp hwf o hm

theorem objWF_nodup {n : Nat} {o : Obj} (hwf : objWF n o = true) :
    (o.props.map Prod.fst).Nodup := by
  unfold objWF at hwf
  simp only [Bool.and_eq_true] at hwf
  exact of_decide_eq_true hwf.1.1

theorem objWF_prop_ref {n : Nat} {o : Obj} {k : PropKey} {b : Nat}
    (hwf : objWF n o = true) (hm : (k, Value.ref b) ∈ o.props) : b < n := by
  unfold objWF at hwf
  simp only [Bool.and_eq_true] at hwf
  have := List.all_eq_true.mp hwf.1.2 _ hm
  simpa [valRefOK] using this

theorem objWF_proto {n : Nat} {o : Obj} {p : Nat}
    (hwf : objWF n o = true) (hp : o.proto = some p) : p < n := by
  unfold objWF at hwf
  simp only [Bool.and_eq_true] at hwf
  have := hwf.2
  rw [hp] at this
  exact of_decide_eq_true this

/-- Values read out of a well-formed heap's own properties are closed. -/
theorem getOwn_closed {h : Heap} {a : Nat} {o : Obj} (k : PropKey)
    (hwf : heapWF h = true) (ha : h[a]? = some o) :
    valClosed h (getOwn o k) = true := by
  unfold getOwn
  cases hf : findProp o.props k with
  | none => rfl
  | some v =>
    have hm := findProp_mem hf
    cases v with
    | ref b =>
      have := objWF_prop_ref (heapWF_obj hwf ha) hm
      simpa [valClosed]
    | prim p => rfl
    | func fid ar s be => rfl

theorem ranksOK_lt {h : Heap} {ranks : List Nat} {a b : Nat} {o : Obj} {k : PropKey}
    (hr : ranksOK h ranks = true) (ha : h[a]? = some o)
    (hm : (k, Value.ref b) ∈ o.props) :
    ranks.getD b 0 < ranks.getD a 0 := by
  have halt : a < h.length := (List.getElem?_eq_some.mp ha).1
  unfold ranksOK at hr
  simp only [Bool.and_eq_true] at hr
  have h2 := List.all_eq_true.mp hr.2 a (List.mem_range.mpr halt)
  rw [ha] at h2
  have := List.all_eq_true.mp h2 _ hm
  exact of_decide_eq_true this

/-- Only references can expose an `equals` hook. -/
theorem hasEqualFunction_shape {h : Heap} {v : Value}
    (he : hasEqualFunction h v = true) : ∃ a, v = .ref a := by
  cases v with
  | ref a => exact ⟨a, rfl⟩
  | prim p => simp [hasEqualFunction, hasFunctionWithArity, getMember] at he
  | func fid ar s be => simp [hasEqualFunction, hasFunctionWithArity, getMember] at he

theorem hasEqualFunction_ref_lt {h : Heap} {a : Nat}
    (he : hasEqualFunction h (.ref a) = true) : a < h.length := by
  by_contra hge
  have hnone : h[a]? = none := List.getElem?_eq_none (by omega)
  simp [hasEqualFunction, hasFunctionWithArity, getMember, getInChain, hnone] at he

theorem noEqualsHooks_all {h : Heap} (hnh : noEqualsHooks h = true) (v : Value) :
    hasEqualFunction h v = false := by
  by_contra hne
  have he : hasEqualFunction h v = true := by
    cases hh : hasEqualFunction h v
    · exact absurd hh hne
    · rfl
  obtain ⟨a, rfl⟩ := hasEqualFunction_shape he
  have halt := hasEqualFunction_ref_lt he
  have := List.all_eq_true.mp hnh a (List.mem_range.mpr halt)
  simp [he] at this

theorem noEqualsHooks_modelled {h : Heap} (hnh : noEqualsHooks h = true) :
    equalsHooksModelled h = true := by
  apply List.all_eq_true.mpr
  intro a ha
  have := List.all_eq_true.mp hnh a ha
  simp_all

theorem hooksModelled_call {h : Heap} {v : Value} (arg : Value)
    (hhm : equalsHooksModelled h = true) (he : hasEqualFunction h v = true) :
    ∃ b, callEqualsMethod h v arg = some b := by
  obtain ⟨a, rfl⟩ := hasEqualFunction_shape he
  have halt := hasEqualFunction_ref_lt he
  have hall := List.all_eq_true.mp hhm a (List.mem_range.mpr halt)
  rw [Bool.or_eq_true] at hall
  rcases hall with hfalse | hsome
  · simp [he] at hfalse
  · have harg : callEqualsMethod h (.ref a) arg = callEqualsMethod h (.ref a) (.prim .undef) :=
      rfl
    rw [harg]
    exact Option.isSome_iff_exists.mp hsome

/-! ## Helper lemmas: totality of `deepEquals` on acyclic graphs -/

theorem ref_of_object_shape {v : Value} (hnl : isNullish v = false)
    (hto : (typeofStr v == "object") = true) : ∃ a, v = .ref a := by
  cases v with
  | ref a => exact ⟨a, rfl⟩
  | func fid ar s be => simp [typeofStr] at hto
  | prim p =>
    cases p with
    | null => simp [isNullish] at hnl
    | undef => simp [isNullish] at hnl
    | num n => simp [typeofStr] at hto
    | str s => simp [typeofStr] at hto
    | bool b => simp [typeofStr] at hto

/-- Once both hooks are absent, identity fails and both sides are
references, `deepEquals` is the structural comparison. -/
theorem deepEquals_structural (h : Heap) (f : Nat) {a1 a2 : Nat} {o1 o2 : Obj}
    (he1 : hasEqualFunction h (.ref a1) = false) (he2 : hasEqualFunction h (.ref a2) = false)
    (hid : objectIs (.ref a1) (.ref a2) = false)
    (h1 : h[a1]? = some o1) (h2 : h[a2]? = some o2) :
    deepEquals h (f + 1) (.ref a1) (.ref a2) =
      if (o1.props.map Prod.fst).length != (o2.props.map Prod.fst).length then some false
      else keysEqualLoop (fun x y => deepEquals h f x y) o1 o2 (o1.props.map Prod.fst) := by
  simp [deepEquals, he1, he2, hid, isNullish, typeofStr, h1, h2]

theorem keysEqualLoop_total (go : Value → Value → Option Bool) (o1 o2 : Obj)
    (keys : List PropKey)
    (htot : ∀ k ∈ keys, ∃ b, go (getOwn o1 k) (getOwn o2 k) = some b) :
    ∃ b, keysEqualLoop go o1 o2 keys = some b := by
  induction keys with
  | nil => exact ⟨true, rfl⟩
  | cons key rest ih =>
    have hrest : ∀ k ∈ rest, ∃ b, go (getOwn o1 k) (getOwn o2 k) = some b :=
      fun k hk => htot k (List.mem_cons_of_mem _ hk)
    obtain ⟨b0, hb0⟩ := htot key (List.mem_cons_self _ _)
    have hred : keysEqualLoop go o1 o2 (key :: rest) =
        if !((o2.props.map Prod.fst).contains key) then some false
        else if isFunction (getOwn o1 key) && isFunction (getOwn o2 key) &&
            !(funcSrc (getOwn o1 key) == funcSrc (getOwn o2 key)) then some false
        else
          match go (getOwn o1 key) (getOwn o2 key) with
          | some true => keysEqualLoop go o1 o2 rest
          | some false => some false
          | none => none := rfl
    rw [hred]
    cases hc : ((o2.props.map Prod.fst).contains key) with
    | false => exact ⟨false, by rw [if_pos]; rfl⟩
    | true =>
      rw [if_neg (by simp)]
      by_cases hmis : (isFunction (getOwn o1 key) && isFunction (getOwn o2 key) &&
          !(funcSrc (getOwn o1 key) == funcSrc (getOwn o2 key))) = true
      · exact ⟨false, by rw [if_pos hmis]⟩
      · rw [if_neg hmis, hb0]
        obtain ⟨b, hb⟩ := ih hrest
        cases b0 with
        | true => exact ⟨b, hb⟩
        | false => exact ⟨false, rfl⟩

theorem getOwn_rank_lt {h : Heap} {ranks : List Nat} {a : Nat} {o : Obj} {f : Nat}
    (k : PropKey) (hr : ranksOK h ranks = true) (ha : h[a]? = some o)
    (hrank : ranks.getD a 0 < f) : valRank ranks (getOwn o k) < f := by
  unfold getOwn
  cases hf : findProp o.props k with
  | none => simp [valRank]; omega
  | some v =>
    cases v with
    | ref b =>
      have := ranksOK_lt hr ha (findProp_mem hf)
      simp only [Option.getD_some, valRank]
      omega
    | prim p => simp [valRank]; omega
    | func fid ar s be => simp [valRank]; omega

/-- On a well-formed acyclic heap whose `equals` hooks all have modelled
boolean behaviour, `deepEquals` terminates (with enough fuel) on every
pair of closed values: the recursion depth on the first argument is
bounded by its rank. -/
theorem deepEquals_total_aux (h : Heap) (ranks : List Nat)
    (hwf : heapWF h = true) (hhm : equalsHooksModelled h = true)
    (hr : ranksOK h ranks = true) :
    ∀ (fuel : Nat) (v1 v2 : Value), valClosed h v1 = true → valClosed h v2 = true →
      valRank ranks v1 < fuel → ∃ b, deepEquals h fuel v1 v2 = some b := by
  intro fuel
  induction fuel with
  | zero => intro v1 v2 _ _ hrank; omega
  | succ f ih =>
    intro v1 v2 hc1 hc2 hrank
    by_cases he1 : hasEqualFunction h v1 = true
    · obtain ⟨b, hb⟩ := hooksModelled_call v2 hhm he1
      exact ⟨b, by simp [deepEquals, he1, hb]⟩
    · simp only [Bool.not_eq_true] at he1
      by_cases he2 : hasEqualFunction h v2 = true
      · obtain ⟨b, hb⟩ := hooksModelled_call v1 hhm he2
        exact ⟨b, by simp [deepEquals, he1, he2, hb]⟩
      · simp only [Bool.not_eq_true] at he2
        by_cases hid : objectIs v1 v2 = true
        · exact ⟨true, by simp [deepEquals, he1, he2, hid]⟩
        · simp only [Bool.not_eq_true] at hid
          by_cases hnl : (isNullish v1 || isNullish v2) = true
          · exact ⟨false, by simp [deepEquals, he1, he2, hid, hnl]⟩
          · simp only [Bool.not_eq_true, Bool.or_eq_false_iff] at hnl
            by_cases ht1 : (typeofStr v1 == "object") = true
            case neg =>
              have hto : (!(typeofStr v1 == "object") || !(typeofStr v2 == "object")) = true := by
                simp only [Bool.not_eq_true] at ht1
                simp [ht1]
              exact ⟨false, by simp [deepEquals, he1, he2, hid, hnl.1, hnl.2, hto]⟩
            by_cases ht2 : (typeofStr v2 == "object") = true
            case neg =>
              have hto : (!(typeofStr v1 == "object") || !(typeofStr v2 == "object")) = true := by
                simp only [Bool.not_eq_true] at ht2
                simp [ht2]
              exact ⟨false, by simp [deepEquals, he1, he2, hid, hnl.1, hnl.2, hto]⟩
            · obtain ⟨a1, rfl⟩ := ref_of_object_shape hnl.1 ht1
              obtain ⟨a2, rfl⟩ := ref_of_object_shape hnl.2 ht2
              have ha1 : a1 < h.length := of_decide_eq_true hc1
              have ha2 : a2 < h.length := of_decide_eq_true hc2
              have h1 : h[a1]? = some h[a1] := List.getElem?_eq_getElem ha1
              have h2 : h[a2]? = some h[a2] := List.getElem?_eq_getElem ha2
              rw [deepEquals_structural h f he1 he2 hid h1 h2]
              by_cases hlen : ((h[a1].props.map Prod.fst).length !=
                  (h[a2].props.map Prod.fst).length) = true
              · exact ⟨false, by rw [if_pos hlen]⟩
              · simp only [Bool.not_eq_true] at hlen
                rw [hlen, if_neg Bool.false_ne_true]
                apply keysEqualLoop_total
                intro k _
                apply ih
                · exact getOwn_closed k hwf h1
                · exact getOwn_closed k hwf h2
                · apply getOwn_rank_lt k hr h1
                  simp only [valRank] at hrank
                  omega

/-! ## Helper lemmas: symmetry of the structural path -/

theorem bool_eq_of_iff {a b : Bool} (h : a = true ↔ b = true) : a = b := by
  cases a <;> cases b <;> simp_all

theorem objectIs_symm (v1 v2 : Value) : objectIs v1 v2 = objectIs v2 v1 := by
  cases v1 <;> cases v2 <;> first
    | rfl
    | (simp [objectIs, sameValueNum, Bool.beq_comm]
       done)
    | (rename_i p1 p2
       cases p1 <;> cases p2 <;> first
         | rfl
         | (simp [objectIs, sameValueNum, Bool.beq_comm]
            done)
         | (rename_i n1 n2
            cases n1 <;> cases n2 <;> simp [objectIs, sameValueNum, Bool.beq_comm]))

/-- Under pointwise termination of the recursive comparisons, the key loop
computes the conjunction of the per-key tests. -/
theorem keysEqualLoop_eq_all (go : Value → Value → Option Bool) (o1 o2 : Obj)
    (keys : List PropKey)
    (htot : ∀ k ∈ keys, ∃ b, go (getOwn o1 k) (getOwn o2 k) = some b) :
    keysEqualLoop go o1 o2 keys = some (keys.all (keyTest go o1 o2)) := by
  induction keys with
  | nil => rfl
  | cons key rest ih =>
    have hrest : ∀ k ∈ rest, ∃ b, go (getOwn o1 k) (getOwn o2 k) = some b :=
      fun k hk => htot k (List.mem_cons_of_mem _ hk)
    obtain ⟨b0, hb0⟩ := htot key (List.mem_cons_self _ _)
    have hred : keysEqualLoop go o1 o2 (key :: rest) =
        if !((o2.props.map Prod.fst).contains key) then some false
        else if isFunction (getOwn o1 key) && isFunction (getOwn o2 key) &&
            !(funcSrc (getOwn o1 key) == funcSrc (getOwn o2 key)) then some false
        else
          match go (getOwn o1 key) (getOwn o2 key) with
          | some true => keysEqualLoop go o1 o2 rest
          | some false => some false
          | none => none := rfl
    rw [hred, List.all_cons]
    cases hc : ((o2.props.map Prod.fst).contains key) with
    | false =>
      rw [if_pos (by simp [hc])]
      simp only [keyTest, hc, Bool.false_and]
    | true =>
      rw [if_neg (by simp [hc])]
      by_cases hmis : (isFunction (getOwn o1 key) && isFunction (getOwn o2 key) &&
          !(funcSrc (getOwn o1 key) == funcSrc (getOwn o2 key))) = true
      · rw [if_pos hmis]
        simp only [keyTest, hc, hmis, Bool.not_true, Bool.true_and, Bool.and_false,
          Bool.false_and]
      · simp only [Bool.not_eq_true] at hmis
        rw [if_neg (by simp [hmis]), hb0, ih hrest]
        cases b0 with
        | true =>
          have hbt : ((some true == (some true : Option Bool)) : Bool) = true := rfl
          simp only [keyTest, hc, hmis, hb0, hbt, Bool.not_false, Bool.true_and]
        | false =>
          have hbf : ((some false == (some true : Option Bool)) : Bool) = false := rfl
          simp only [keyTest, hc, hmis, hb0, hbf, Bool.not_false, Bool.true_and,
            Bool.and_false, Bool.false_and]

/-- The per-key tests transfer from one comparison order to the other:
distinct keys, equal key counts and a pointwise-symmetric recursive
comparison make `keys1.every` and `keys2.every` agree. -/
theorem allKeys_swap (o1 o2 : Obj) (go go' : Value → Value → Option Bool)
    (hsym : ∀ k : PropKey, go (getOwn o1 k) (getOwn o2 k) = go' (getOwn o2 k) (getOwn o1 k))
    (hnd1 : (o1.props.map Prod.fst).Nodup) (hnd2 : (o2.props.map Prod.fst).Nodup)
    (hlen : (o1.props.map Prod.fst).length = (o2.props.map Prod.fst).length)
    (hall : (o1.props.map Prod.fst).all (keyTest go o1 o2) = true) :
    (o2.props.map Prod.fst).all (keyTest go' o2 o1) = true := by
  have hall' := List.all_eq_true.mp hall
  have hsub : o1.props.map Prod.fst ⊆ o2.props.map Prod.fst := by
    intro k hk
    have := hall' k hk
    simp only [keyTest, Bool.and_eq_true] at this
    exact List.elem_iff.mp this.1.1
  have hsub2 : o2.props.map Prod.fst ⊆ o1.props.map Prod.fst := by
    have h1 : (o1.props.map Prod.fst).toFinset ⊆ (o2.props.map Prod.fst).toFinset :=
      fun x hx => List.mem_toFinset.mpr (hsub (List.mem_toFinset.mp hx))
    have hcard : (o2.props.map Prod.fst).toFinset.card ≤
        (o1.props.map Prod.fst).toFinset.card := by
      rw [List.toFinset_card_of_nodup hnd1, List.toFinset_card_of_nodup hnd2]
      omega
    have heq := Finset.eq_of_subset_of_card_le h1 hcard
    intro x hx
    exact List.mem_toFinset.mp (heq ▸ List.mem_toFinset.mpr hx)
  apply List.all_eq_true.mpr
  intro k hk2
  have hk1 : k ∈ o1.props.map Prod.fst := hsub2 hk2
  have hkt := hall' k hk1
  simp only [keyTest, Bool.and_eq_true] at hkt
  obtain ⟨⟨hcont, hnm⟩, hgo⟩ := hkt
  simp only [keyTest, Bool.and_eq_true]
  refine ⟨⟨List.elem_iff.mpr hk1, ?_⟩, ?_⟩
  · rw [Bool.and_comm (isFunction (getOwn o2 k)) (isFunction (getOwn o1 k)),
      Bool.beq_comm]
    exact hnm
  · rw [← hsym k]
    exact hgo

/-- Symmetry of `deepEquals` on hook-free, well-formed, acyclic heaps. -/
theorem deepEquals_symm_aux (h : Heap) (ranks : List Nat)
    (hwf : heapWF h = true) (hnh : noEqualsHooks h = true) (hr : ranksOK h ranks = true) :
    ∀ (fuel : Nat) (v1 v2 : Value), valClosed h v1 = true → valClosed h v2 = true →
      valRank ranks v1 < fuel → valRank ranks v2 < fuel →
      deepEquals h fuel v1 v2 = deepEquals h fuel v2 v1 := by
  have hhm := noEqualsHooks_modelled hnh
  intro fuel
  induction fuel with
  | zero => intro v1 v2 _ _ _ _; rfl
  | succ f ih =>
    intro v1 v2 hc1 hc2 hrk1 hrk2
    have he1 := noEqualsHooks_all hnh v1
    have he2 := noEqualsHooks_all hnh v2
    by_cases hid : objectIs v1 v2 = true
    · have hid' : objectIs v2 v1 = true := by rw [← objectIs_symm]; exact hid
      simp [deepEquals, he1, he2, hid, hid']
    · simp only [Bool.not_eq_true] at hid
      have hid' : objectIs v2 v1 = false := by rw [← objectIs_symm]; exact hid
      by_cases hnl : (isNullish v1 || isNullish v2) = true
      · have hnl' : (isNullish v2 || isNullish v1) = true := by
          rw [Bool.or_comm]; exact hnl
        simp [deepEquals, he1, he2, hid, hid', hnl, hnl']
      · simp only [Bool.not_eq_true, Bool.or_eq_false_iff] at hnl
        by_cases ht1 : (typeofStr v1 == "object") = true
        case neg =>
          simp only [Bool.not_eq_true] at ht1
          have hto : (!(typeofStr v1 == "object") || !(typeofStr v2 == "object")) = true := by
            simp [ht1]
          have hto' : (!(typeofStr v2 == "object") || !(typeofStr v1 == "object")) = true := by
            simp [ht1]
          simp [deepEquals, he1, he2, hid, hid', hnl.1, hnl.2, hto, hto']
        by_cases ht2 : (typeofStr v2 == "object") = true
        case neg =>
          simp only [Bool.not_eq_true] at ht2
          have hto : (!(typeofStr v1 == "object") || !(typeofStr v2 == "object")) = true := by
            simp [ht2]
          have hto' : (!(typeofStr v2 == "object") || !(typeofStr v1 == "object")) = true := by
            simp [ht2]
          simp [deepEquals, he1, he2, hid, hid', hnl.1, hnl.2, hto, hto']
        obtain ⟨a1, rfl⟩ := ref_of_object_shape hnl.1 ht1
        obtain ⟨a2, rfl⟩ := ref_of_object_shape hnl.2 ht2
        have ha1 : a1 < h.length := of_decide_eq_true hc1
        have ha2 : a2 < h.length := of_decide_eq_true hc2
        have h1 : h[a1]? = some h[a1] := List.getElem?_eq_getElem ha1
        have h2 : h[a2]? = some h[a2] := List.getElem?_eq_getElem ha2
        rw [deepEquals_structural h f he1 he2 hid h1 h2,
          deepEquals_structural h f he2 he1 hid' h2 h1]
        have hrka1 : ranks.getD a1 0 < f := by
          simp only [valRank] at hrk1; omega
        have hrka2 : ranks.getD a2 0 < f := by
          simp only [valRank] at hrk2; omega
        have htot12 : ∀ k ∈ h[a1].props.map Prod.fst,
            ∃ b, deepEquals h f (getOwn h[a1] k) (getOwn h[a2] k) = some b := by
          intro k _
          exact deepEquals_total_aux h ranks hwf hhm hr f _ _
            (getOwn_closed k hwf h1) (getOwn_closed k hwf h2)
            (getOwn_rank_lt k hr h1 hrka1)
        have htot21 : ∀ k ∈ h[a2].props.map Prod.fst,
            ∃ b, deepEquals h f (getOwn h[a2] k) (getOwn h[a1] k) = some b := by
          intro k _
          exact deepEquals_total_aux h ranks hwf hhm hr f _ _
            (getOwn_closed k hwf h2) (getOwn_closed k hwf h1)
            (getOwn_rank_lt k hr h2 hrka2)
        by_cases hlen : (h[a1].props.map Prod.fst).length = (h[a2].props.map Prod.fst).length
        case neg =>
          have hlen' : ¬h[a1].props.length = h[a2].props.length := by
            simpa using hlen
          have hb1 : ((h[a1].props.map Prod.fst).length !=
              (h[a2].props.map Prod.fst).length) = true := by
            simp only [List.length_map, bne_iff_ne]
            exact hlen'
          have hb2 : ((h[a2].props.map Prod.fst).length !=
              (h[a1].props.map Prod.fst).length) = true := by
            simp only [List.length_map, bne_iff_ne]
            exact fun hh => hlen' hh.symm
          rw [if_pos hb1, if_pos hb2]
        · have hlen' : h[a1].props.length = h[a2].props.length := by
            simpa using hlen
          rw [if_neg (by simp [hlen']), if_neg (by simp [hlen'])]
          rw [keysEqualLoop_eq_all _ _ _ _ htot12, keysEqualLoop_eq_all _ _ _ _ htot21]
          have hnd1 := objWF_nodup (heapWF_obj hwf h1)
          have hnd2 := objWF_nodup (heapWF_obj hwf h2)
          have hsym : ∀ k : PropKey,
              deepEquals h f (getOwn h[a1] k) (getOwn h[a2] k) =
              deepEquals h f (getOwn h[a2] k) (getOwn h[a1] k) := by
            intro k
            exact ih _ _ (getOwn_closed k hwf h1) (getOwn_closed k hwf h2)
              (getOwn_rank_lt k hr h1 hrka1) (getOwn_rank_lt k hr h2 hrka2)
          congr 1
          apply bool_eq_of_iff
          constructor
          · intro hA
            exact allKeys_swap h[a1] h[a2] _ _ hsym hnd1 hnd2 hlen hA
          · intro hB
            exact allKeys_swap h[a2] h[a1] _ _ (fun k => (hsym k).symm) hnd2 hnd1
              hlen.symm hB

/-! ## Helper lemmas: WeakMap and clone-state bookkeeping -/

theorem findVis_mem_keys {l : List (Nat × Nat)} {b c : Nat}
    (hf : findVis l b = some c) : b ∈ l.map Prod.fst := by
  induction l with
  | nil => simp [findVis] at hf
  | cons pr rest ih =>
    obtain ⟨a0, c0⟩ := pr
    by_cases ha : a0 = b
    · subst ha
      simp
    · simp only [findVis, if_neg ha] at hf
      simp [ih hf]

theorem findVis_of_mem_keys {l : List (Nat × Nat)} {b : Nat}
    (hk : b ∈ l.map Prod.fst) : ∃ c, findVis l b = some c := by
  induction l with
  | nil => simp at hk
  | cons pr rest ih =>
    obtain ⟨a0, c0⟩ := pr
    by_cases ha : a0 = b
    · exact ⟨c0, by simp [findVis, ha]⟩
    · have hk' : b ∈ rest.map Prod.fst := by
        rcases List.mem_map.mp hk with ⟨pq, hpq, hfst⟩
        rcases List.mem_cons.mp hpq with hpq1 | hpq2
        · rw [hpq1] at hfst
          exact absurd hfst ha
        · exact List.mem_map.mpr ⟨pq, hpq2, hfst⟩
      obtain ⟨c, hc⟩ := ih hk'
      exact ⟨c, by simp [findVis, ha, hc]⟩

theorem findVis_mono {l1 l2 : List (Nat × Nat)} {b c : Nat} (hsuf : l1 <:+ l2)
    (hnd : (l2.map Prod.fst).Nodup) (hf : findVis l1 b = some c) :
    findVis l2 b = some c := by
  obtain ⟨t, rfl⟩ := hsuf
  induction t with
  | nil => exact hf
  | cons pr t ih =>
    obtain ⟨a0, c0⟩ := pr
    simp only [List.cons_append, List.map_cons, List.nodup_cons] at hnd
    obtain ⟨hna, hnd'⟩ := hnd
    have hb : b ∈ (t ++ l1).map Prod.fst := by
      rw [List.map_append]
      exact List.mem_append_right _ (findVis_mem_keys hf)
    have hab : a0 ≠ b := fun he => hna (he ▸ hb)
    simp only [findVis, List.cons_append, if_neg hab]
    exact ih hnd'

theorem setProp_length (h : Heap) (c : Nat) (k : PropKey) (r : Value) :
    (setProp h c k r).length = h.length := by
  cases hc : h[c]? <;> simp [setProp, hc]

theorem setProp_getElem_ne (h : Heap) {c : Nat} (k : PropKey) (r : Value) {i : Nat}
    (hne : i ≠ c) : (setProp h c k r)[i]? = h[i]? := by
  cases hc : h[c]? with
  | none => simp [setProp, hc]
  | some o =>
    simp only [setProp, hc]
    exact List.getElem?_set_ne (Ne.symm hne)

theorem setProp_getElem_self {h : Heap} {c : Nat} (k : PropKey) (r : Value) {o : Obj}
    (hc : h[c]? = some o) :
    (setProp h c k r)[c]? = some { o with props := replaceProp o.props k r } := by
  have hlt : c < h.length := (List.getElem?_eq_some.mp hc).1
  simp only [setProp, hc]
  exact List.getElem?_set_self hlt

theorem replaceProp_map_fst (l : List (PropKey × Value)) (k : PropKey) (r : Value) :
    (replaceProp l k r).map Prod.fst = l.map Prod.fst := by
  induction l with
  | nil => rfl
  | cons kv rest ih =>
    obtain ⟨k0, v0⟩ := kv
    by_cases hk : k0 = k
    · simp [replaceProp, hk, ih]
    · simp [replaceProp, hk, ih]

theorem findProp_replaceProp_self {l : List (PropKey × Value)} {k : PropKey} (r : Value)
    (hk : k ∈ l.map Prod.fst) : findProp (replaceProp l k r) k = some r := by
  induction l with
  | nil => simp at hk
  | cons kv rest ih =>
    obtain ⟨k0, v0⟩ := kv
    by_cases hke : k0 = k
    · simp [replaceProp, findProp, hke]
    · have hk' : k ∈ rest.map Prod.fst := by
        rcases List.mem_map.mp hk with ⟨pq, hpq, hfst⟩
        rcases List.mem_cons.mp hpq with hpq1 | hpq2
        · rw [hpq1] at hfst
          exact absurd hfst hke
        · exact List.mem_map.mpr ⟨pq, hpq2, hfst⟩
      simp [replaceProp, findProp, hke, ih hk']

theorem findProp_replaceProp_ne {l : List (PropKey × Value)} {k k' : PropKey} (r : Value)
    (hne : k' ≠ k) : findProp (replaceProp l k r) k' = findProp l k' := by
  induction l with
  | nil => rfl
  | cons kv rest ih =>
    obtain ⟨k0, v0⟩ := kv
    by_cases hk : k0 = k
    · subst hk
      have : k0 ≠ k' := fun he => hne he.symm
      simp [replaceProp, findProp, this, ih]
    · by_cases hk' : k0 = k'
      · simp [replaceProp, findProp, hk, hk', hne]
      · simp [replaceProp, findProp, hk, hk', hne, ih]

theorem nodup_lt_length_le {l : List Nat} {n : Nat} (hnd : l.Nodup)
    (hlt : ∀ a ∈ l, a < n) : l.length ≤ n := by
  have h1 : l.toFinset ⊆ Finset.range n :=
    fun x hx => Finset.mem_range.mpr (hlt x (List.mem_toFinset.mp hx))
  have h2 := Finset.card_le_card h1
  rw [List.toFinset_card_of_nodup hnd, Finset.card_range] at h2
  exact h2

/-! ## Helper lemmas: hook detection and clone relation during a run -/

/-- During a clone run the source region is untouched, so every successful
chain lookup that starts inside it resolves to an own property of a
source object. -/
theorem getInChain_src {h0 hcur : Heap} (hwf : heapWF h0 = true)
    (hag : HeapAgree h0 hcur h0.length) :
    ∀ (f a : Nat) (k : PropKey) (w : Value), a < h0.length →
      getInChain hcur f a k = some w →
      ∃ i o, i < h0.length ∧ h0[i]? = some o ∧ findProp o.props k = some w := by
  intro f
  induction f with
  | zero =>
    intro a k w ha hg
    simp [getInChain] at hg
  | succ f ih =>
    intro a k w ha hg
    have heq : hcur[a]? = h0[a]? := hag a ha
    have hsome : h0[a]? = some h0[a] := List.getElem?_eq_getElem ha
    cases hfp : findProp h0[a].props k with
    | some v =>
      simp only [getInChain, heq, hsome, hfp] at hg
      exact ⟨a, h0[a], ha, hsome, by rw [hfp, hg]⟩
    | none =>
      cases hpr : h0[a].proto with
      | some p =>
        simp only [getInChain, heq, hsome, hfp, hpr] at hg
        have hp : p < h0.length := objWF_proto (heapWF_obj hwf hsome) hpr
        exact ih p k w hp hg
      | none =>
        simp only [getInChain, heq, hsome, hfp, hpr] at hg
        exact Option.noConfusion hg

/-- `noCloneHooks` says exactly: no own `deepClone` property anywhere in
the source heap is an arity-0 function. -/
theorem noCloneHooks_prop {h0 : Heap} (hnch : noCloneHooks h0 = true) {i : Nat} {o : Obj}
    {w : Value} (hi : h0[i]? = some o)
    (hw : findProp o.props (.str "deepClone") = some w) :
    ∀ fid s be, w ≠ .func fid 0 s be := by
  intro fid s be hfe
  subst hfe
  have hmo : o ∈ h0 := List.getElem?_mem hi
  have h1 := List.all_eq_true.mp hnch o hmo
  have h2 := List.all_eq_true.mp h1 _ (findProp_mem hw)
  simp at h2

/-- The `hasDeepCloneMethod` test stays `false` on source references
throughout a run of a hook-free clone. -/
theorem hasDeepCloneMethod_stable {h0 hcur : Heap} {a : Nat} (hwf : heapWF h0 = true)
    (hnch : noCloneHooks h0 = true) (hag : HeapAgree h0 hcur h0.length)
    (ha : a < h0.length) : hasDeepCloneMethod hcur (.ref a) = false := by
  unfold hasDeepCloneMethod hasFunctionWithArity
  cases hgm : getMember hcur (.ref a) "deepClone" with
  | none => rfl
  | some w =>
    obtain ⟨i, o, hi, ho, hfp⟩ :=
      getInChain_src hwf hag (hcur.length + 1) a (.str "deepClone") w ha hgm
    cases w with
    | prim p => rfl
    | ref b => rfl
    | func fid ar s be =>
      have har : ar ≠ 0 := fun h0eq =>
        noCloneHooks_prop hnch ho hfp fid s be (by rw [h0eq])
      simp [har]

theorem CloneRel_mono {h0 : Heap} {st1 st2 : CloneSt} {v r : Value}
    (hrel : CloneRel h0 st1 v r) (hsuf : st1.vis <:+ st2.vis)
    (hnd : (st2.vis.map Prod.fst).Nodup) : CloneRel h0 st2 v r := by
  cases v with
  | prim p => exact hrel
  | func fid ar s be => exact hrel
  | ref b =>
    simp only [CloneRel] at hrel ⊢
    cases hb : h0[b]? with
    | none => trivial
    | some o =>
      rw [hb] at hrel
      have hrel' : (match o.tag with
          | Tag.plain => ∃ c, r = Value.ref c ∧ findVis st1.vis b = some c
          | Tag.date _ => ∃ c, r = Value.ref c ∧ h0.length ≤ c
          | Tag.regexp _ _ => ∃ c, r = Value.ref c ∧ h0.length ≤ c) := hrel
      show (match o.tag with
          | Tag.plain => ∃ c, r = Value.ref c ∧ findVis st2.vis b = some c
          | Tag.date _ => ∃ c, r = Value.ref c ∧ h0.length ≤ c
          | Tag.regexp _ _ => ∃ c, r = Value.ref c ∧ h0.length ≤ c)
      cases hto : o.tag with
      | plain =>
        rw [hto] at hrel'
        obtain ⟨c, hc, hv⟩ := hrel'
        exact ⟨c, hc, findVis_mono hsuf hnd hv⟩
      | date t =>
        rw [hto] at hrel'
        exact hrel'
      | regexp s f =>
        rw [hto] at hrel'
        exact hrel'

theorem heapAgree_append (h : Heap) (l : List Obj) : HeapAgree h (h ++ l) h.length :=
  fun _ hi => List.getElem?_append_left hi

theorem CloneRel_ref_plain {h0 : Heap} {st' : CloneSt} {a c : Nat} {o : Obj}
    (ho : h0[a]? = some o) (ht : o.tag = .plain)
    (hv : findVis st'.vis a = some c) : CloneRel h0 st' (.ref a) (.ref c) := by
  simp only [CloneRel]
  rw [ho]
  show (match o.tag with
      | Tag.plain => ∃ c', Value.ref c = Value.ref c' ∧ findVis st'.vis a = some c'
      | Tag.date _ => ∃ c', Value.ref c = Value.ref c' ∧ h0.length ≤ c'
      | Tag.regexp _ _ => ∃ c', Value.ref c = Value.ref c' ∧ h0.length ≤ c')
  rw [ht]
  exact ⟨c, rfl, hv⟩

theorem CloneRel_ref_date {h0 : Heap} {st' : CloneSt} {a c : Nat} {o : Obj} {t : Int}
    (ho : h0[a]? = some o) (ht : o.tag = .date t)
    (hc : h0.length ≤ c) : CloneRel h0 st' (.ref a) (.ref c) := by
  simp only [CloneRel]
  rw [ho]
  show (match o.tag with
      | Tag.plain => ∃ c', Value.ref c = Value.ref c' ∧ findVis st'.vis a = some c'
      | Tag.date _ => ∃ c', Value.ref c = Value.ref c' ∧ h0.length ≤ c'
      | Tag.regexp _ _ => ∃ c', Value.ref c = Value.ref c' ∧ h0.length ≤ c')
  rw [ht]
  exact ⟨c, rfl, hc⟩

theorem CloneRel_ref_regexp {h0 : Heap} {st' : CloneSt} {a c : Nat} {o : Obj}
    {rs rf : String} (ho : h0[a]? = some o) (ht : o.tag = .regexp rs rf)
    (hc : h0.length ≤ c) : CloneRel h0 st' (.ref a) (.ref c) := by
  simp only [CloneRel]
  rw [ho]
  show (match o.tag with
      | Tag.plain => ∃ c', Value.ref c = Value.ref c' ∧ findVis st'.vis a = some c'
      | Tag.date _ => ∃ c', Value.ref c = Value.ref c' ∧ h0.length ≤ c'
      | Tag.regexp _ _ => ∃ c', Value.ref c = Value.ref c' ∧ h0.length ≤ c')
  rw [ht]
  exact ⟨c, rfl, hc⟩

/-- The `forEach` reassignment loop of `internalDeepClone`: assuming the
master statement at the loop's fuel, the loop over any source property
list completes, mutating only the clone at `c`, whose final property at
each processed key is `CloneRel`-related to the source field. -/
theorem clonePropsLoop_ok (h0 : Heap) (fuel : Nat) (IH : CloneStepOK h0 fuel) :
    ∀ (list : List (PropKey × Value)) (st : CloneSt) (c : Nat),
      CloneInv h0 st → h0.length ≤ c → c < st.heap.length →
      (∀ kv ∈ list, FieldOK h0 kv.2) →
      (list.map Prod.fst).Nodup →
      (∀ o, st.heap[c]? = some o → ∀ kv ∈ list, kv.1 ∈ o.props.map Prod.fst) →
      h0.length - st.vis.length < fuel →
      ∃ st', clonePropsLoop (fun v' s => internalDeepClone fuel v' s) c list st =
          .ok (.ref c) st' ∧
        CloneInv h0 st' ∧ st.heap.length ≤ st'.heap.length ∧
        (∀ i, i < st.heap.length → i ≠ c → st'.heap[i]? = st.heap[i]?) ∧
        st.vis <:+ st'.vis ∧
        ∀ o, st.heap[c]? = some o →
          ∃ o', st'.heap[c]? = some o' ∧ o'.proto = o.proto ∧ o'.tag = o.tag ∧
            o'.props.map Prod.fst = o.props.map Prod.fst ∧
            (∀ k, k ∉ list.map Prod.fst → findProp o'.props k = findProp o.props k) ∧
            ∀ kv ∈ list, ∃ r, findProp o'.props kv.1 = some r ∧
              CloneRel h0 st' kv.2 r := by
  intro list
  induction list with
  | nil =>
    intro st c hinv hcN hclen _ _ _ _
    refine ⟨st, rfl, hinv, le_refl _, fun i _ _ => rfl, List.suffix_refl _, ?_⟩
    intro o ho
    exact ⟨o, ho, rfl, rfl, rfl, fun k _ => rfl,
      fun kv hkv => absurd hkv (List.not_mem_nil _)⟩
  | cons kv rest ih =>
    obtain ⟨k, val⟩ := kv
    intro st c hinv hcN hclen hfo hnd hkeys hbound
    obtain ⟨o0, ho0⟩ : ∃ o0, st.heap[c]? = some o0 :=
      ⟨_, List.getElem?_eq_getElem hclen⟩
    simp only [List.map_cons, List.nodup_cons] at hnd
    obtain ⟨hknotin, hndrest⟩ := hnd
    have hkmem : k ∈ o0.props.map Prod.fst :=
      hkeys o0 ho0 (k, val) (List.mem_cons_self _ _)
    cases hio : instanceofObject val with
    | true =>
      have hsv : SrcVal h0 val := by
        cases val with
        | ref b =>
          show b < h0.length
          exact hfo (k, .ref b) (List.mem_cons_self _ _) b rfl
        | func fid ar s be => trivial
        | prim p => simp [instanceofObject] at hio
      obtain ⟨r, st2, hrun, hinv2, hlen2, hag2, hsuf2, hrel2⟩ := IH st val hinv hsv hbound
      have e3len : (setProp st2.heap c k r).length = st2.heap.length :=
        setProp_length st2.heap c k r
      have hc2 : st2.heap[c]? = some o0 := by
        rw [hag2 c hclen]
        exact ho0
      have ho3 : (setProp st2.heap c k r)[c]? =
          some { o0 with props := replaceProp o0.props k r } :=
        setProp_getElem_self k r hc2
      have hinv3 : CloneInv h0 (⟨setProp st2.heap c k r, st2.vis⟩ : CloneSt) := by
        obtain ⟨hN2, hagH2, hndv2, hbv2⟩ := hinv2
        refine ⟨?_, ?_, hndv2, ?_⟩
        · show h0.length ≤ (setProp st2.heap c k r).length
          omega
        · intro i hi
          show (setProp st2.heap c k r)[i]? = h0[i]?
          rw [setProp_getElem_ne st2.heap k r (show i ≠ c by omega)]
          exact hagH2 i hi
        · intro pr hpr
          obtain ⟨hb1, hb2, hb3⟩ := hbv2 pr hpr
          refine ⟨hb1, hb2, ?_⟩
          show pr.2 < (setProp st2.heap c k r).length
          omega
      have hclen3 : c < (setProp st2.heap c k r).length := by omega
      have hbound3 : h0.length - st2.vis.length < fuel := by
        have := hsuf2.length_le
        omega
      have hkeys3 : ∀ o, (setProp st2.heap c k r)[c]? = some o →
          ∀ kv ∈ rest, kv.1 ∈ o.props.map Prod.fst := by
        intro o ho kv hkv
        rw [ho3] at ho
        cases ho
        show kv.1 ∈ (replaceProp o0.props k r).map Prod.fst
        rw [replaceProp_map_fst]
        exact hkeys o0 ho0 kv (List.mem_cons_of_mem _ hkv)
      obtain ⟨st', hrun', hinv', hlen', hframe', hsuf', hobj'⟩ :=
        ih ⟨setProp st2.heap c k r, st2.vis⟩ c hinv3 hcN hclen3
          (fun kv hkv => hfo kv (List.mem_cons_of_mem _ hkv)) hndrest hkeys3 hbound3
      refine ⟨st', ?_, hinv', ?_, ?_, ?_, ?_⟩
      · show clonePropsLoop (fun v' s => internalDeepClone fuel v' s) c
            ((k, val) :: rest) st = .ok (.ref c) st'
        simp only [clonePropsLoop, hio, if_true, hrun]
        exact hrun'
      · have hlen'' : (setProp st2.heap c k r).length ≤ st'.heap.length := hlen'
        omega
      · intro i hi hne
        have h1 : st'.heap[i]? = (setProp st2.heap c k r)[i]? :=
          hframe' i (show i < (setProp st2.heap c k r).length by omega) hne
        rw [h1, setProp_getElem_ne st2.heap k r hne, hag2 i hi]
      · exact hsuf2.trans hsuf'
      · intro o ho
        rw [ho0] at ho
        cases ho
        obtain ⟨o', ho', hproto', htag', hkeq', hunt', hper'⟩ := hobj' _ ho3
        refine ⟨o', ho', hproto', htag', ?_, ?_, ?_⟩
        · rw [hkeq']
          exact replaceProp_map_fst o0.props k r
        · intro k' hk'
          simp only [List.map_cons, List.mem_cons, not_or] at hk'
          obtain ⟨hk'ne, hk'rest⟩ := hk'
          rw [hunt' k' hk'rest]
          show findProp (replaceProp o0.props k r) k' = findProp o0.props k'
          exact findProp_replaceProp_ne r hk'ne
        · intro kv' hkv'
          rcases List.mem_cons.mp hkv' with hkv1 | hkv2
          · cases hkv1
            refine ⟨r, ?_, ?_⟩
            · rw [hunt' k hknotin]
              show findProp (replaceProp o0.props k r) k = some r
              exact findProp_replaceProp_self r hkmem
            · exact CloneRel_mono hrel2 hsuf' hinv'.2.2.1
          · exact hper' kv' hkv2
    | false =>
      obtain ⟨p, rfl⟩ : ∃ p, val = .prim p := by
        cases val with
        | prim p => exact ⟨p, rfl⟩
        | ref b => simp [instanceofObject] at hio
        | func fid ar s be => simp [instanceofObject] at hio
      have e3len : (setProp st.heap c k (.prim p)).length = st.heap.length :=
        setProp_length st.heap c k (.prim p)
      have ho3 : (setProp st.heap c k (.prim p))[c]? =
          some { o0 with props := replaceProp o0.props k (.prim p) } :=
        setProp_getElem_self k (.prim p) ho0
      have hinv3 : CloneInv h0 (⟨setProp st.heap c k (.prim p), st.vis⟩ : CloneSt) := by
        obtain ⟨hN2, hagH2, hndv2, hbv2⟩ := hinv
        refine ⟨?_, ?_, hndv2, ?_⟩
        · show h0.length ≤ (setProp st.heap c k (.prim p)).length
          omega
        · intro i hi
          show (setProp st.heap c k (.prim p))[i]? = h0[i]?
          rw [setProp_getElem_ne st.heap k (.prim p) (show i ≠ c by omega)]
          exact hagH2 i hi
        · intro pr hpr
          obtain ⟨hb1, hb2, hb3⟩ := hbv2 pr hpr
          refine ⟨hb1, hb2, ?_⟩
          show pr.2 < (setProp st.heap c k (.prim p)).length
          omega
      have hclen3 : c < (setProp st.heap c k (.prim p)).length := by omega
      have hkeys3 : ∀ o, (setProp st.heap c k (.prim p))[c]? = some o →
          ∀ kv ∈ rest, kv.1 ∈ o.props.map Prod.fst := by
        intro o ho kv hkv
        rw [ho3] at ho
        cases ho
        show kv.1 ∈ (replaceProp o0.props k (.prim p)).map Prod.fst
        rw [replaceProp_map_fst]
        exact hkeys o0 ho0 kv (List.mem_cons_of_mem _ hkv)
      obtain ⟨st', hrun', hinv', hlen', hframe', hsuf', hobj'⟩ :=
        ih ⟨setProp st.heap c k (.prim p), st.vis⟩ c hinv3 hcN hclen3
          (fun kv hkv => hfo kv (List.mem_cons_of_mem _ hkv)) hndrest hkeys3 hbound
      refine ⟨st', ?_, hinv', ?_, ?_, ?_, ?_⟩
      · show clonePropsLoop (fun v' s => internalDeepClone fuel v' s) c
            ((k, .prim p) :: rest) st = .ok (.ref c) st'
        simp only [clonePropsLoop, hio, Bool.false_eq_true, if_false]
        exact hrun'
      · have hlen'' : (setProp st.heap c k (.prim p)).length ≤ st'.heap.length := hlen'
        omega
      · intro i hi hne
        have h1 : st'.heap[i]? = (setProp st.heap c k (.prim p))[i]? :=
          hframe' i (show i < (setProp st.heap c k (.prim p)).length by omega) hne
        rw [h1, setProp_getElem_ne st.heap k (.prim p) hne]
      · exact hsuf'
      · intro o ho
        rw [ho0] at ho
        cases ho
        obtain ⟨o', ho', hproto', htag', hkeq', hunt', hper'⟩ := hobj' _ ho3
        refine ⟨o', ho', hproto', htag', ?_, ?_, ?_⟩
        · rw [hkeq']
          exact replaceProp_map_fst o0.props k (.prim p)
        · intro k' hk'
          simp only [List.map_cons, List.mem_cons, not_or] at hk'
          obtain ⟨hk'ne, hk'rest⟩ := hk'
          rw [hunt' k' hk'rest]
          show findProp (replaceProp o0.props k (.prim p)) k' = findProp o0.props k'
          exact findProp_replaceProp_ne (.prim p) hk'ne
        · intro kv' hkv'
          rcases List.mem_cons.mp hkv' with hkv1 | hkv2
          · cases hkv1
            refine ⟨.prim p, ?_, rfl⟩
            rw [hunt' k hknotin]
            show findProp (replaceProp o0.props k (.prim p)) k = some (.prim p)
            exact findProp_replaceProp_self (.prim p) hkmem
          · exact hper' kv' hkv2

/-- One unfolding of `internalDeepClone` on a hook-free object reference. -/
theorem internalDeepClone_ref_red (fuel : Nat) (st : CloneSt) (a : Nat) (o : Obj)
    (hhook : hasDeepCloneMethod st.heap (.ref a) = false)
    (hsta : st.heap[a]? = some o) :
    internalDeepClone (fuel + 1) (.ref a) st =
      (match o.tag with
       | .date t => .ok (.ref st.heap.length) ⟨st.heap ++ [⟨[], o.proto, .date t⟩], st.vis⟩
       | .regexp s f =>
           .ok (.ref st.heap.length) ⟨st.heap ++ [⟨[], o.proto, .regexp s f⟩], st.vis⟩
       | .plain =>
         match findVis st.vis a with
         | some c => .ok (.ref c) st
         | none =>
           clonePropsLoop (fun v' s => internalDeepClone fuel v' s) st.heap.length o.props
             ⟨st.heap ++ [⟨o.props, o.proto, .plain⟩], (a, st.heap.length) :: st.vis⟩) := by
  have hof : (!(isObjectOrFunction (.ref a))) = false := rfl
  have hft : (typeofStr (.ref a) == "function") = false := rfl
  simp only [internalDeepClone, hhook, hof, hft, hsta, Bool.false_eq_true, if_false]

/-- The master lemma: with fuel exceeding the number of not-yet-visited
source objects, `internalDeepClone` succeeds on every source value. -/
theorem internalDeepClone_ok (h0 : Heap) (hwf : heapWF h0 = true)
    (hnch : noCloneHooks h0 = true) : ∀ fuel, CloneStepOK h0 fuel := by
  intro fuel
  induction fuel with
  | zero =>
    intro st v hinv hsv hbound
    omega
  | succ fuel ih =>
    intro st v hinv hsv hbound
    cases v with
    | prim p =>
      cases p with
      | null => exact absurd rfl hsv
      | num n => exact ⟨_, st, rfl, hinv, le_refl _, fun i _ => rfl, List.suffix_refl _, rfl⟩
      | str s => exact ⟨_, st, rfl, hinv, le_refl _, fun i _ => rfl, List.suffix_refl _, rfl⟩
      | bool b => exact ⟨_, st, rfl, hinv, le_refl _, fun i _ => rfl, List.suffix_refl _, rfl⟩
      | undef => exact ⟨_, st, rfl, hinv, le_refl _, fun i _ => rfl, List.suffix_refl _, rfl⟩
    | func fid ar s be =>
      exact ⟨_, st, rfl, hinv, le_refl _, fun i _ => rfl, List.suffix_refl _, rfl⟩
    | ref a =>
      have haN : a < h0.length := hsv
      obtain ⟨hN, hag, hndv, hbv⟩ := hinv
      have hhook : hasDeepCloneMethod st.heap (.ref a) = false :=
        hasDeepCloneMethod_stable hwf hnch hag haN
      obtain ⟨oA, hoA⟩ : ∃ oA, h0[a]? = some oA := ⟨_, List.getElem?_eq_getElem haN⟩
      have hsta : st.heap[a]? = some oA := by
        rw [hag a haN]
        exact hoA
      have hred := internalDeepClone_ref_red fuel st a oA hhook hsta
      cases htag : oA.tag with
      | date t =>
        rw [htag] at hred
        refine ⟨.ref st.heap.length,
          ⟨st.heap ++ [⟨[], oA.proto, .date t⟩], st.vis⟩, hred, ?_, ?_, ?_,
          List.suffix_refl _, ?_⟩
        · refine ⟨?_, ?_, hndv, ?_⟩
          · show h0.length ≤ (st.heap ++ [(⟨[], oA.proto, .date t⟩ : Obj)]).length
            rw [List.length_append]
            simp only [List.length_singleton]
            omega
          · intro i hi
            show (st.heap ++ [(⟨[], oA.proto, .date t⟩ : Obj)])[i]? = h0[i]?
            rw [List.getElem?_append_left (by omega)]
            exact hag i hi
          · intro pr hpr
            obtain ⟨hb1, hb2, hb3⟩ := hbv pr hpr
            refine ⟨hb1, hb2, ?_⟩
            show pr.2 < (st.heap ++ [(⟨[], oA.proto, .date t⟩ : Obj)]).length
            rw [List.length_append]
            simp only [List.length_singleton]
            omega
        · show st.heap.length ≤ (st.heap ++ [(⟨[], oA.proto, .date t⟩ : Obj)]).length
          rw [List.length_append]
          simp only [List.length_singleton]
          omega
        · intro i hi
          exact List.getElem?_append_left hi
        · exact CloneRel_ref_date hoA htag hN
      | regexp rs rf =>
        rw [htag] at hred
        refine ⟨.ref st.heap.length,
          ⟨st.heap ++ [⟨[], oA.proto, .regexp rs rf⟩], st.vis⟩, hred, ?_, ?_, ?_,
          List.suffix_refl _, ?_⟩
        · refine ⟨?_, ?_, hndv, ?_⟩
          · show h0.length ≤ (st.heap ++ [(⟨[], oA.proto, .regexp rs rf⟩ : Obj)]).length
            rw [List.length_append]
            simp only [List.length_singleton]
            omega
          · intro i hi
            show (st.heap ++ [(⟨[], oA.proto, .regexp rs rf⟩ : Obj)])[i]? = h0[i]?
            rw [List.getElem?_append_left (by omega)]
            exact hag i hi
          · intro pr hpr
            obtain ⟨hb1, hb2, hb3⟩ := hbv pr hpr
            refine ⟨hb1, hb2, ?_⟩
            show pr.2 < (st.heap ++ [(⟨[], oA.proto, .regexp rs rf⟩ : Obj)]).length
            rw [List.length_append]
            simp only [List.length_singleton]
            omega
        · show st.heap.length ≤ (st.heap ++ [(⟨[], oA.proto, .regexp rs rf⟩ : Obj)]).length
          rw [List.length_append]
          simp only [List.length_singleton]
          omega
        · intro i hi
          exact List.getElem?_append_left hi
        · exact CloneRel_ref_regexp hoA htag hN
      | plain =>
        rw [htag] at hred
        cases hvis : findVis st.vis a with
        | some c =>
          rw [hvis] at hred
          refine ⟨.ref c, st, hred, ⟨hN, hag, hndv, hbv⟩, le_refl _, fun i _ => rfl,
            List.suffix_refl _, ?_⟩
          exact CloneRel_ref_plain hoA htag hvis
        | none =>
          rw [hvis] at hred
          have hanotin : a ∉ st.vis.map Prod.fst := by
            intro hmem
            obtain ⟨c, hc⟩ := findVis_of_mem_keys hmem
            rw [hvis] at hc
            exact Option.noConfusion hc
          have hvislt : st.vis.length < h0.length := by
            have hcons : (a :: st.vis.map Prod.fst).Nodup :=
              List.nodup_cons.mpr ⟨hanotin, hndv⟩
            have hle := nodup_lt_length_le hcons (by
              intro x hx
              rcases List.mem_cons.mp hx with h1 | h2
              · rw [h1]
                exact haN
              · obtain ⟨pr, hpr, hfst⟩ := List.mem_map.mp h2
                rw [← hfst]
                exact (hbv pr hpr).1)
            simp only [List.length_cons, List.length_map] at hle
            omega
          have hinv1 : CloneInv h0
              (⟨st.heap ++ [⟨oA.props, oA.proto, .plain⟩],
                (a, st.heap.length) :: st.vis⟩ : CloneSt) := by
            refine ⟨?_, ?_, ?_, ?_⟩
            · show h0.length ≤ (st.heap ++ [(⟨oA.props, oA.proto, .plain⟩ : Obj)]).length
              rw [List.length_append]
              simp only [List.length_singleton]
              omega
            · intro i hi
              show (st.heap ++ [(⟨oA.props, oA.proto, .plain⟩ : Obj)])[i]? = h0[i]?
              rw [List.getElem?_append_left (by omega)]
              exact hag i hi
            · show ((((a, st.heap.length)) :: st.vis).map Prod.fst).Nodup
              rw [List.map_cons]
              exact List.nodup_cons.mpr ⟨hanotin, hndv⟩
            · intro pr hpr
              rcases List.mem_cons.mp hpr with h1 | h2
              · rw [h1]
                refine ⟨haN, hN, ?_⟩
                show st.heap.length < (st.heap ++ [(⟨oA.props, oA.proto, .plain⟩ : Obj)]).length
                rw [List.length_append]
                simp only [List.length_singleton]
                omega
              · obtain ⟨hb1, hb2, hb3⟩ := hbv pr h2
                refine ⟨hb1, hb2, ?_⟩
                show pr.2 < (st.heap ++ [(⟨oA.props, oA.proto, .plain⟩ : Obj)]).length
                rw [List.length_append]
                simp only [List.length_singleton]
                omega
          have hbound1 : h0.length - ((a, st.heap.length) :: st.vis).length < fuel := by
            simp only [List.length_cons]
            omega
          have hfo : ∀ kv ∈ oA.props, FieldOK h0 kv.2 := by
            intro kv hkv a' he
            have hm : (kv.1, Value.ref a') ∈ oA.props := by
              rw [← he]
              exact hkv
            exact objWF_prop_ref (heapWF_obj hwf hoA) hm
          have hndk : (oA.props.map Prod.fst).Nodup :=
            objWF_nodup (heapWF_obj hwf hoA)
          have hconcat : (st.heap ++ [(⟨oA.props, oA.proto, .plain⟩ : Obj)])[st.heap.length]? =
              some ⟨oA.props, oA.proto, .plain⟩ :=
            List.getElem?_concat_length st.heap _
          have hkeys1 : ∀ o, (st.heap ++ [(⟨oA.props, oA.proto, .plain⟩ : Obj)])[st.heap.length]? = some o →
              ∀ kv ∈ oA.props, kv.1 ∈ o.props.map Prod.fst := by
            intro o ho kv hkv
            rw [hconcat] at ho
            cases ho
            exact List.mem_map.mpr ⟨kv, hkv, rfl⟩
          obtain ⟨st', hrun', hinv', hlen', hframe', hsuf', hobj'⟩ :=
            clonePropsLoop_ok h0 fuel ih (oA.props)
              ⟨st.heap ++ [⟨oA.props, oA.proto, .plain⟩],
                (a, st.heap.length) :: st.vis⟩
              st.heap.length hinv1 hN
              (by
                show st.heap.length < (st.heap ++ [(⟨oA.props, oA.proto, .plain⟩ : Obj)]).length
                rw [List.length_append]
                simp only [List.length_singleton]
                omega)
              hfo hndk hkeys1 hbound1
          have hsufcons : st.vis <:+ (a, st.heap.length) :: st.vis := List.suffix_cons _ _
          refine ⟨.ref st.heap.length, st', ?_, hinv', ?_, ?_, ?_, ?_⟩
          · rw [hred]
            exact hrun'
          · have hlen'' : (st.heap ++ [(⟨oA.props, oA.proto, .plain⟩ : Obj)]).length ≤
                st'.heap.length := hlen'
            rw [List.length_append] at hlen''
            simp only [List.length_singleton] at hlen''
            omega
          · intro i hi
            have h1 : st'.heap[i]? =
                (st.heap ++ [(⟨oA.props, oA.proto, .plain⟩ : Obj)])[i]? := by
              apply hframe' i
              · show i < (st.heap ++ [(⟨oA.props, oA.proto, .plain⟩ : Obj)]).length
                rw [List.length_append]
                simp only [List.length_singleton]
                omega
              · omega
            rw [h1]
            exact List.getElem?_append_left hi
          · exact hsufcons.trans hsuf'
          · refine CloneRel_ref_plain hoA htag ?_
            apply findVis_mono hsuf' hinv'.2.2.1
            show findVis ((a, st.heap.length) :: st.vis) a = some st.heap.length
            simp [findVis]

theorem CloneRel_ref_plain_elim {h0 : Heap} {st' : CloneSt} {b : Nat} {r : Value} {o : Obj}
    (ho : h0[b]? = some o) (ht : o.tag = .plain)
    (hrel : CloneRel h0 st' (.ref b) r) :
    ∃ c, r = .ref c ∧ findVis st'.vis b = some c := by
  simp only [CloneRel] at hrel
  rw [ho] at hrel
  have hrel' : (match o.tag with
      | Tag.plain => ∃ c, r = Value.ref c ∧ findVis st'.vis b = some c
      | Tag.date _ => ∃ c, r = Value.ref c ∧ h0.length ≤ c
      | Tag.regexp _ _ => ∃ c, r = Value.ref c ∧ h0.length ≤ c) := hrel
  rw [ht] at hrel'
  exact hrel'

/-- Top-level `deepClone` of a plain, non-hooked object: the generic
structural-clone path runs, allocating the clone at the fresh address
`h0.length`, registering it in the WeakMap; the clone keeps the source's
prototype and exact own-key list, each key bound to a `CloneRel`-related
value. -/
theorem deepClone_fresh (h0 : Heap) (hwf : heapWF h0 = true) (hnch : noCloneHooks h0 = true)
    (a : Nat) (o0 : Obj) (ha : h0[a]? = some o0) (htag : o0.tag = .plain) :
    ∃ st', deepClone (h0.length + 1) h0 (.ref a) = .ok (.ref h0.length) st' ∧
      (st'.vis.map Prod.fst).Nodup ∧ findVis st'.vis a = some h0.length ∧
      ∃ o', st'.heap[h0.length]? = some o' ∧ o'.proto = o0.proto ∧
        o'.props.map Prod.fst = o0.props.map Prod.fst ∧
        ∀ kv ∈ o0.props, ∃ r, findProp o'.props kv.1 = some r ∧
          CloneRel h0 st' kv.2 r := by
  have haN : a < h0.length := (List.getElem?_eq_some.mp ha).1
  have hhook : hasDeepCloneMethod h0 (.ref a) = false :=
    hasDeepCloneMethod_stable hwf hnch (fun _ _ => rfl) haN
  have hred := internalDeepClone_ref_red h0.length ⟨h0, []⟩ a o0 hhook ha
  rw [htag] at hred
  have hred2 : internalDeepClone (h0.length + 1) (.ref a) ⟨h0, []⟩ =
      clonePropsLoop (fun v' s => internalDeepClone h0.length v' s) h0.length o0.props
        ⟨h0 ++ [⟨o0.props, o0.proto, .plain⟩], [(a, h0.length)]⟩ := by
    rw [hred]
    rfl
  have hinv1 : CloneInv h0
      (⟨h0 ++ [⟨o0.props, o0.proto, .plain⟩], [(a, h0.length)]⟩ : CloneSt) := by
    refine ⟨?_, ?_, ?_, ?_⟩
    · show h0.length ≤ (h0 ++ [(⟨o0.props, o0.proto, .plain⟩ : Obj)]).length
      rw [List.length_append]
      simp only [List.length_singleton]
      omega
    · intro i hi
      exact List.getElem?_append_left hi
    · simp
    · intro pr hpr
      rcases List.mem_cons.mp hpr with h1 | h2
      · rw [h1]
        refine ⟨haN, le_refl _, ?_⟩
        show h0.length < (h0 ++ [(⟨o0.props, o0.proto, .plain⟩ : Obj)]).length
        rw [List.length_append]
        simp only [List.length_singleton]
        omega
      · exact absurd h2 (List.not_mem_nil _)
  have hfo : ∀ kv ∈ o0.props, FieldOK h0 kv.2 := by
    intro kv hkv a' he
    have hm : (kv.1, Value.ref a') ∈ o0.props := by
      rw [← he]
      exact hkv
    exact objWF_prop_ref (heapWF_obj hwf ha) hm
  have hndk : (o0.props.map Prod.fst).Nodup := objWF_nodup (heapWF_obj hwf ha)
  have hconcat : (h0 ++ [(⟨o0.props, o0.proto, .plain⟩ : Obj)])[h0.length]? =
      some ⟨o0.props, o0.proto, .plain⟩ :=
    List.getElem?_concat_length h0 _
  have hkeys1 : ∀ o,
      (h0 ++ [(⟨o0.props, o0.proto, .plain⟩ : Obj)])[h0.length]? = some o →
      ∀ kv ∈ o0.props, kv.1 ∈ o.props.map Prod.fst := by
    intro o ho kv hkv
    rw [hconcat] at ho
    cases ho
    exact List.mem_map.mpr ⟨kv, hkv, rfl⟩
  have hbound1 : h0.length - ([(a, h0.length)] : List (Nat × Nat)).length < h0.length := by
    simp only [List.length_singleton]
    omega
  obtain ⟨st', hrun', hinv', hlen', hframe', hsuf', hobj'⟩ :=
    clonePropsLoop_ok h0 h0.length (internalDeepClone_ok h0 hwf hnch h0.length)
      o0.props ⟨h0 ++ [⟨o0.props, o0.proto, .plain⟩], [(a, h0.length)]⟩ h0.length
      hinv1 (le_refl _)
      (by
        show h0.length < (h0 ++ [(⟨o0.props, o0.proto, .plain⟩ : Obj)]).length
        rw [List.length_append]
        simp only [List.length_singleton]
        omega)
      hfo hndk hkeys1 hbound1
  have hvisfinal : findVis st'.vis a = some h0.length := by
    apply findVis_mono hsuf' hinv'.2.2.1
    show findVis [(a, h0.length)] a = some h0.length
    simp [findVis]
  refine ⟨st', ?_, hinv'.2.2.1, hvisfinal, ?_⟩
  · show internalDeepClone (h0.length + 1) (.ref a) ⟨h0, []⟩ = .ok (.ref h0.length) st'
    rw [hred2]
    exact hrun'
  · obtain ⟨o', ho', hproto, htago, hkeq, hunt, hper⟩ := hobj' _ hconcat
    exact ⟨o', ho', hproto, hkeq, hper⟩

/-! ## Claim theorems (first group) -/

/-- **C1** (code bug): the clone-equivalence contract
`deepEquals(v, deepClone(v)) = true` fails at `v = null`.  In the
WeakMap revision, `null` passes the `typeof value === "object"` guard of
`isObjectOrFunction`, misses every special case, and
`Object.getOwnPropertyDescriptors(null)` throws a `TypeError`; so
`deepClone(null)` throws instead of returning `null` (the repository's
own test expects `deepClone(null)` to equal `null`).  The second
conjunct records that even the `{}` returned by the earlier non-WeakMap
revision would not be deeply equal to `null`. -/
theorem deepClone_null_bug (fuel : Nat) (st : CloneSt) :
    internalDeepClone (fuel + 1) (.prim .null) st = .thrown ∧
    deepEquals emptyObjHeap (fuel + 1) (.prim .null) (.ref 0) = some false :=
  ⟨rfl, rfl⟩

/-- **C3** (counterexample): the claim `deepEquals(NaN, NaN) = false` is
false on the code: the identity step uses `Object.is` (SameValue), and
`Object.is(NaN, NaN)` is `true`, so `deepEquals(NaN, NaN) = true`. -/
theorem deepEquals_nan_counterexample :
    deepEquals [] 1 (.prim (.num .nan)) (.prim (.num .nan)) = some true := rfl

/-- **C3** (amended): `deepEquals(NaN, NaN)` returns `true` — the identity
step uses `Object.is` (SameValue), which treats `NaN` as equal to itself —
while `+0` and `-0` are still distinguished (`deepEquals(+0, -0) = false`). -/
theorem deepEquals_nan_sameValue (h : Heap) (fuel : Nat) :
    deepEquals h (fuel + 1) (.prim (.num .nan)) (.prim (.num .nan)) = some true ∧
    deepEquals h (fuel + 1) (.prim (.num (.int 0))) (.prim (.num .negZero)) = some false :=
  ⟨rfl, rfl⟩

/-- **C4** (counterexample): `deepEquals` is not total on cyclic object
graphs.  On the two distinct self-referential objects of `cycHeap` the
recursion `deepEquals(a, b) → deepEquals(a.self, b.self) = deepEquals(a, b)`
never terminates: the fuelled run returns `none` for every fuel (the code
has no cycle guard, so the real function overflows the stack here). -/
theorem deepEquals_not_total_on_cycles : DivergesOn cycHeap (.ref 0) (.ref 1) := by
  intro fuel
  induction fuel with
  | zero => rfl
  | succ n ih =>
    have hred : deepEquals cycHeap (n + 1) (.ref 0) (.ref 1) =
        (match deepEquals cycHeap n (.ref 0) (.ref 1) with
         | some true => some true
         | some false => some false
         | none => none) := rfl
    rw [hred, ih]

/-- **C5**: if `value1` exposes a valid arity-1 `equals` hook, the result of
`deepEquals` is exactly the result of calling `value1.equals(value2)` —
for *every* `value2`, so `value2`'s own hook is never consulted and no
structural fallback can override the hook; if only `value2` exposes such
a hook, the result is `value2.equals(value1)`. -/
theorem deepEquals_customHook (h : Heap) (fuel : Nat) (v1 v2 : Value) :
    (hasEqualFunction h v1 = true →
      deepEquals h (fuel + 1) v1 v2 = callEqualsMethod h v1 v2) ∧
    (hasEqualFunction h v1 = false → hasEqualFunction h v2 = true →
      deepEquals h (fuel + 1) v1 v2 = callEqualsMethod h v2 v1) := by
  constructor
  · intro h1
    simp [deepEquals, h1]
  · intro h1 h2
    simp [deepEquals, h1, h2]

/-- Witness for `deepEquals_customHook`: object 0 of `hookHeap` carries a
`false`-returning hook, so even `deepEquals(a, a)` — identical on the
structural path — returns the hook's `false`; object 1 is hook-free, so
against object 0 the second branch fires. -/
theorem deepEquals_customHook_witness :
    (hasEqualFunction hookHeap (.ref 0) = true ∧
      deepEquals hookHeap 1 (.ref 0) (.ref 0) = callEqualsMethod hookHeap (.ref 0) (.ref 0)) ∧
    (hasEqualFunction hookHeap (.ref 1) = false ∧
      deepEquals hookHeap 1 (.ref 1) (.ref 0) = callEqualsMethod hookHeap (.ref 0) (.ref 1)) :=
  ⟨⟨rfl, (deepEquals_customHook hookHeap 0 (.ref 0) (.ref 0)).1 rfl⟩,
   ⟨rfl, (deepEquals_customHook hookHeap 0 (.ref 1) (.ref 0)).2 rfl rfl⟩⟩

/-- **C10**: capability detection uses `name in object`, which walks the
prototype chain; so an `equals` (arity 1) or `deepClone` (arity 0) hook
defined only on the prototype — as with class methods — is still found
and dispatched to by `deepEquals` / `internalDeepClone`. -/
theorem hooks_inherited (h : Heap) (fuel : Nat) (a p : Nat) (o po : Obj)
    (ha : h[a]? = some o) (hp : o.proto = some p) (hpo : h[p]? = some po) :
    (∀ (v2 : Value) (fid : Nat) (s : String) (b : Bool),
      findProp o.props (.str "equals") = none →
      findProp po.props (.str "equals") = some (.func fid 1 s (.retBool b)) →
      deepEquals h (fuel + 1) (.ref a) v2 = some b) ∧
    (∀ (st : CloneSt) (gid : Nat) (gs : String) (r : Value),
      st.heap = h →
      findProp o.props (.str "deepClone") = none →
      findProp po.props (.str "deepClone") = some (.func gid 0 gs (.ret r)) →
      internalDeepClone (fuel + 1) (.ref a) st = .ok r st) := by
  constructor
  · intro v2 fid s b hk hw
    have hm : getMember h (.ref a) "equals" = some (.func fid 1 s (.retBool b)) :=
      getMember_inherit h a p o po "equals" _ ha hk hp hpo hw
    have h1 : hasEqualFunction h (.ref a) = true := by
      simp [hasEqualFunction, hasFunctionWithArity, hm]
    simp [deepEquals, h1, callEqualsMethod, hm]
  · intro st gid gs r hst hk hw
    subst hst
    have hm : getMember st.heap (.ref a) "deepClone" = some (.func gid 0 gs (.ret r)) :=
      getMember_inherit st.heap a p o po "deepClone" _ ha hk hp hpo hw
    have h1 : hasDeepCloneMethod st.heap (.ref a) = true := by
      simp [hasDeepCloneMethod, hasFunctionWithArity, hm]
    simp [internalDeepClone, h1, hm]

/-- Witness for `hooks_inherited`: in `protoHookHeap` object 0 inherits
both hooks from its prototype (object 1); `deepEquals` returns the
inherited hook's `true` and `internalDeepClone` returns the inherited
hook's `"hooked"` string without touching the state. -/
theorem hooks_inherited_witness :
    deepEquals protoHookHeap 1 (.ref 0) (.prim .null) = some true ∧
    internalDeepClone 1 (.ref 0) ⟨protoHookHeap, []⟩ =
      .ok (.prim (.str "hooked")) ⟨protoHookHeap, []⟩ :=
  ⟨(hooks_inherited protoHookHeap 0 0 1 _ _ rfl rfl rfl).1 (.prim .null) 7 "(o) => true" true
      rfl rfl,
   (hooks_inherited protoHookHeap 0 0 1 _ _ rfl rfl rfl).2 ⟨protoHookHeap, []⟩ 8
      "() => \"hooked\"" (.prim (.str "hooked")) rfl rfl rfl⟩

/-- **C4** (amended): `deepEquals` is a pure function of its two arguments
and the heap (the embedding gives it no way to write), and it terminates
with a boolean on every pair of closed values over a well-formed heap
whose object graph is acyclic (certified by a rank function) and whose
`equals` hooks return booleans; the fuel bound depends only on the first
argument's rank.  On cyclic graphs it need not terminate (see
`deepEquals_not_total_on_cycles`). -/
theorem deepEquals_total_acyclic (h : Heap) (ranks : List Nat) (fuel : Nat) (v1 v2 : Value)
    (hwf : heapWF h = true) (hhm : equalsHooksModelled h = true)
    (hr : ranksOK h ranks = true)
    (hc1 : valClosed h v1 = true) (hc2 : valClosed h v2 = true)
    (hf : valRank ranks v1 < fuel) :
    ∃ b, deepEquals h fuel v1 v2 = some b :=
  deepEquals_total_aux h ranks hwf hhm hr fuel v1 v2 hc1 hc2 hf

/-- Witness for `deepEquals_total_acyclic` on the concrete acyclic heap
`rankedHeap` with rank certificate `[1, 0]`. -/
theorem deepEquals_total_acyclic_witness :
    heapWF rankedHeap = true ∧ ranksOK rankedHeap [1, 0] = true ∧
    ∃ b, deepEquals rankedHeap 3 (.ref 0) (.ref 0) = some b :=
  ⟨rfl, by decide,
   deepEquals_total_acyclic rankedHeap [1, 0] 3 (.ref 0) (.ref 0) rfl rfl (by decide)
     (by decide) (by decide) (by decide)⟩

/-- **C9** (counterexample): symmetry can fail even when neither of the two
compared values exposes an `equals` hook, because a *nested* value's hook
is dispatched with the traversal's current argument order.  In `asymHeap`
the top-level objects 0 and 1 are hook-free, yet
`deepEquals(ref 0, ref 1) = true` while `deepEquals(ref 1, ref 0) = false`. -/
theorem deepEquals_symm_counterexample :
    hasEqualFunction asymHeap (.ref 0) = false ∧
    hasEqualFunction asymHeap (.ref 1) = false ∧
    deepEquals asymHeap 2 (.ref 0) (.ref 1) = some true ∧
    deepEquals asymHeap 2 (.ref 1) (.ref 0) = some false :=
  ⟨rfl, rfl, rfl, rfl⟩

/-- **C9** (amended): `deepEquals(a, b) = deepEquals(b, a)` holds when *no
value anywhere in the heap* exposes a valid arity-1 `equals` hook and the
object graph is acyclic (so both comparisons terminate; on cyclic graphs
one order can return `false` while the other diverges). -/
theorem deepEquals_symm_hookFree (h : Heap) (ranks : List Nat) (fuel : Nat) (v1 v2 : Value)
    (hwf : heapWF h = true) (hnh : noEqualsHooks h = true) (hr : ranksOK h ranks = true)
    (hc1 : valClosed h v1 = true) (hc2 : valClosed h v2 = true)
    (hr1 : valRank ranks v1 < fuel) (hr2 : valRank ranks v2 < fuel) :
    deepEquals h fuel v1 v2 = deepEquals h fuel v2 v1 :=
  deepEquals_symm_aux h ranks hwf hnh hr fuel v1 v2 hc1 hc2 hr1 hr2

/-- Witness for `deepEquals_symm_hookFree` on `rankedHeap`, comparing the
wrapper object against its empty field object in both orders. -/
theorem deepEquals_symm_hookFree_witness :
    noEqualsHooks rankedHeap = true ∧
    deepEquals rankedHeap 3 (.ref 0) (.ref 1) = deepEquals rankedHeap 3 (.ref 1) (.ref 0) :=
  ⟨rfl,
   deepEquals_symm_hookFree rankedHeap [1, 0] 3 (.ref 0) (.ref 1) rfl rfl (by decide)
     (by decide) (by decide) (by decide) (by decide)⟩

/-- **C2**: cycle safety of `internalDeepClone`.  Cloning a plain,
non-hooked, self-referential object (own key `k` pointing back to the
object itself) terminates with fuel `h.length + 1` — the WeakMap breaks
the cycle — and in the clone (allocated at the fresh address `h.length`,
distinct from `a`) the key `k` points to the clone itself, not to the
original. -/
theorem deepClone_cycle_safe (h : Heap) (a : Nat) (o : Obj) (k : PropKey)
    (hwf : heapWF h = true) (hnch : noCloneHooks h = true)
    (ha : h[a]? = some o) (htag : o.tag = .plain)
    (hself : findProp o.props k = some (.ref a)) :
    ∃ st' o', deepClone (h.length + 1) h (.ref a) = .ok (.ref h.length) st' ∧
      st'.heap[h.length]? = some o' ∧
      findProp o'.props k = some (.ref h.length) ∧ a ≠ h.length := by
  obtain ⟨st', hrun, hnd, hvis, o', ho', hproto, hkeys, hper⟩ :=
    deepClone_fresh h hwf hnch a o ha htag
  obtain ⟨r, hr, hrel⟩ := hper (k, .ref a) (findProp_mem hself)
  obtain ⟨c, hc, hv⟩ := CloneRel_ref_plain_elim ha htag hrel
  have hceq : c = h.length := by
    rw [hvis] at hv
    exact (Option.some.inj hv).symm
  refine ⟨st', o', hrun, ho', ?_, ?_⟩
  · rw [hr, hc, hceq]
  · have := (List.getElem?_eq_some.mp ha).1
    omega

/-- Witness for `deepClone_cycle_safe` on the one-object loop
`a = {self: a}`. -/
theorem deepClone_cycle_safe_witness :
    ∃ st' o', deepClone 2 selfLoopHeap (.ref 0) = .ok (.ref 1) st' ∧
      st'.heap[1]? = some o' ∧
      findProp o'.props (.str "self") = some (.ref 1) ∧ 0 ≠ 1 :=
  deepClone_cycle_safe selfLoopHeap 0 ⟨[(.str "self", .ref 0)], none, .plain⟩
    (.str "self") rfl rfl rfl rfl rfl

/-- **C7** (counterexample): shared-reference preservation fails for
aliased built-in objects.  Cloning `{l: d, r: d}` where `d` is a `Date`
(`sharedDateHeap`) binds `l` and `r` of the clone (address 2) to *two
distinct* fresh `Date` clones, addresses 3 and 4: the `instanceof Date`
branch precedes the WeakMap check and does not register its result, so
each alias of `d` is rebuilt separately — refuting the claim's "one
single cloned object" for this structured value. -/
theorem deepClone_shared_refs_counterexample :
    deepClone 3 sharedDateHeap (.ref 0) =
      .ok (.ref 2)
        ⟨[⟨[(.str "l", .ref 1), (.str "r", .ref 1)], none, .plain⟩,
          ⟨[], none, .date 0⟩,
          ⟨[(.str "l", .ref 3), (.str "r", .ref 4)], none, .plain⟩,
          ⟨[], none, .date 0⟩,
          ⟨[], none, .date 0⟩],
         [(0, 2)]⟩ := rfl

/-- **C7** (amended): shared-reference preservation for *plain* nested
objects.  If two own keys of a source object alias the same plain
nested object `b`, the clone binds both keys to one single reference —
the clone of `b` registered in the WeakMap.  (For aliased `Date` /
`RegExp` objects the claim fails: see
`deepClone_shared_refs_counterexample`.) -/
theorem deepClone_shared_refs (h : Heap) (a b : Nat) (o ob : Obj) (k1 k2 : PropKey)
    (hwf : heapWF h = true) (hnch : noCloneHooks h = true)
    (ha : h[a]? = some o) (htag : o.tag = .plain)
    (hb : h[b]? = some ob) (hbtag : ob.tag = .plain)
    (hk1 : findProp o.props k1 = some (.ref b))
    (hk2 : findProp o.props k2 = some (.ref b)) :
    ∃ st' o' cb, deepClone (h.length + 1) h (.ref a) = .ok (.ref h.length) st' ∧
      st'.heap[h.length]? = some o' ∧
      findProp o'.props k1 = some (.ref cb) ∧
      findProp o'.props k2 = some (.ref cb) := by
  obtain ⟨st', hrun, hnd, hvis, o', ho', hproto, hkeys, hper⟩ :=
    deepClone_fresh h hwf hnch a o ha htag
  obtain ⟨r1, hr1, hrel1⟩ := hper (k1, .ref b) (findProp_mem hk1)
  obtain ⟨r2, hr2, hrel2⟩ := hper (k2, .ref b) (findProp_mem hk2)
  obtain ⟨c1, hc1, hv1⟩ := CloneRel_ref_plain_elim hb hbtag hrel1
  obtain ⟨c2, hc2, hv2⟩ := CloneRel_ref_plain_elim hb hbtag hrel2
  have hceq : c1 = c2 := by
    rw [hv1] at hv2
    exact Option.some.inj hv2
  refine ⟨st', o', c1, hrun, ho', ?_, ?_⟩
  · rw [hr1, hc1]
  · rw [hr2, hc2, hceq]

/-- Witness for `deepClone_shared_refs` on `{l: inner, r: inner}`. -/
theorem deepClone_shared_refs_witness :
    ∃ st' o' cb, deepClone 3 sharedHeap (.ref 0) = .ok (.ref 2) st' ∧
      st'.heap[2]? = some o' ∧
      findProp o'.props (.str "l") = some (.ref cb) ∧
      findProp o'.props (.str "r") = some (.ref cb) :=
  deepClone_shared_refs sharedHeap 0 1 ⟨[(.str "l", .ref 1), (.str "r", .ref 1)], none, .plain⟩
    ⟨[], none, .plain⟩ (.str "l") (.str "r") rfl rfl rfl rfl rfl rfl rfl rfl

/-- **C8**: the generic structural clone of a plain, non-hooked object
preserves the prototype and reproduces exactly the source's own keys —
string and symbol keys alike, in order — each bound to the recursive
clone of the source's field value (`CloneRel`: primitives and functions
as themselves, references to plain objects as the WeakMap-registered
clone, `Date`/`RegExp` fields as fresh rebuilt objects). -/
theorem deepClone_generic_structural (h : Heap) (a : Nat) (o : Obj)
    (hwf : heapWF h = true) (hnch : noCloneHooks h = true)
    (ha : h[a]? = some o) (htag : o.tag = .plain) :
    ∃ st' o', deepClone (h.length + 1) h (.ref a) = .ok (.ref h.length) st' ∧
      st'.heap[h.length]? = some o' ∧ o'.proto = o.proto ∧
      o'.props.map Prod.fst = o.props.map Prod.fst ∧
      ∀ kv ∈ o.props, ∃ r, findProp o'.props kv.1 = some r ∧
        CloneRel h st' kv.2 r := by
  obtain ⟨st', hrun, hnd, hvis, o', ho', hproto, hkeys, hper⟩ :=
    deepClone_fresh h hwf hnch a o ha htag
  exact ⟨st', o', hrun, ho', hproto, hkeys, hper⟩

/-- Witness for `deepClone_generic_structural` on an object with a
prototype, a string key and a symbol key. -/
theorem deepClone_generic_structural_witness :
    ∃ st' o', deepClone 3 protoKeysHeap (.ref 0) = .ok (.ref 2) st' ∧
      st'.heap[2]? = some o' ∧ o'.proto = some 1 ∧
      o'.props.map Prod.fst = [.str "a", .sym 0] ∧
      ∀ kv ∈ [((.str "a" : PropKey), Value.prim (.num (.int 1))), ((.sym 0 : PropKey), Value.ref 1)],
        ∃ r, findProp o'.props kv.1 = some r ∧ CloneRel protoKeysHeap st' kv.2 r :=
  deepClone_generic_structural protoKeysHeap 0
    ⟨[(.str "a", .prim (.num (.int 1))), (.sym 0, .ref 1)], some 1, .plain⟩ rfl rfl rfl rfl

/-- **C6**: hooks of the wrong declared arity are never called.  First
conjunct: an `equals` member of arity other than 1 (here claiming
everything equal) is ignored — `deepEquals` falls through to the
structural rules and reports a key-count mismatch as `false`.  Second
conjunct: an own `deepClone` member of arity other than 0 is ignored —
`internalDeepClone` runs the generic structural path, allocating a fresh
clone at `h.length` instead of returning the member's value. -/
theorem wrongArity_hooks_ignored :
    (∀ (h : Heap) (fuel : Nat) (a b : Nat) (o1 o2 : Obj) (fid n : Nat) (s : String)
        (be : Beh),
      h[a]? = some o1 → h[b]? = some o2 →
      getMember h (.ref a) "equals" = some (.func fid n s be) → n ≠ 1 →
      hasEqualFunction h (.ref b) = false →
      a ≠ b → o1.props.length ≠ o2.props.length →
      deepEquals h (fuel + 1) (.ref a) (.ref b) = some false) ∧
    (∀ (h : Heap) (a : Nat) (o : Obj) (gid m : Nat) (gs : String) (gbe : Beh),
      heapWF h = true → noCloneHooks h = true → h[a]? = some o → o.tag = .plain →
      findProp o.props (.str "deepClone") = some (.func gid m gs gbe) → m ≠ 0 →
      ∃ st', deepClone (h.length + 1) h (.ref a) = .ok (.ref h.length) st') := by
  constructor
  · intro h fuel a b o1 o2 fid n s be h1 h2 hm hn he2 hab hlen
    have he1 : hasEqualFunction h (.ref a) = false := by
      have : getMember h (.ref a) "equals" = some (.func fid n s be) := hm
      simp [hasEqualFunction, hasFunctionWithArity, this, hn]
    have hid : objectIs (.ref a) (.ref b) = false := by
      simp [objectIs, hab]
    rw [deepEquals_structural h fuel he1 he2 hid h1 h2]
    rw [if_pos]
    simp only [List.length_map, bne_iff_ne]
    exact hlen
  · intro h a o gid m gs gbe hwf hnch ha htag hm hne
    obtain ⟨st', hrun, _, _, _⟩ := deepClone_fresh h hwf hnch a o ha htag
    exact ⟨st', hrun⟩

/-- Witness for `wrongArity_hooks_ignored`: `wrongArityEqualsHeap`'s
arity-2 everything-is-equal hook is ignored (structural `false` wins);
`wrongArityCloneHeap`'s arity-1 `deepClone` (which would return the
number 7) is ignored (a fresh object reference comes back instead). -/
theorem wrongArity_hooks_ignored_witness :
    deepEquals wrongArityEqualsHeap 1 (.ref 0) (.ref 1) = some false ∧
    ∃ st', deepClone 2 wrongArityCloneHeap (.ref 0) = .ok (.ref 1) st' :=
  ⟨wrongArity_hooks_ignored.1 wrongArityEqualsHeap 0 0 1
      ⟨[(.str "equals", .func 20 2 "(a, b) => true" (.retBool true)),
        (.str "z", .prim (.num (.int 1)))], none, .plain⟩
      ⟨[], none, .plain⟩ 20 2 "(a, b) => true" (.retBool true)
      rfl rfl rfl (by decide) rfl (by decide) (by decide),
   wrongArity_hooks_ignored.2 wrongArityCloneHeap 0
      ⟨[(.str "deepClone", .func 21 1 "(x) => 7" (.ret (.prim (.num (.int 7)))))],
        none, .plain⟩
      21 1 "(x) => 7" (.ret (.prim (.num (.int 7)))) rfl rfl rfl rfl rfl (by decide)⟩

end TickTsUtils
